import Mathlib

/-!
Verification of the weighted graph embedding system (rembed).

This file gives a shallow embedding, in exact rational arithmetic, of the
spatial-query and embedding components of the repository:

* the fixed-dimension vector primitive (src/dvec.rs),
* the brute-force spatial index (src/embedding.rs),
* the recursive axis-split tree (src/atree.rs),
* the dynamic-query wrapper (src/dynamic_queries.rs),
* the repulsion pipeline of the embedder (src/embedder.rs),
* graph construction with degree-derived weights (src/graph.rs),
* the binary position-history format (src/parsing.rs),
* the batched symmetrizing query driver (src/query.rs).

Machine floating point (f32 and f64) is modelled by exact rationals; the
floating square root is modelled by an exact rational square root that
rounds up when the argument is not a perfect square (it agrees with the
machine operation on perfect squares, which is the only case exercised by
the concrete inputs below).  Raw 32-bit float bit patterns appear in two
places: the sort key of the tree construction, modelled by the order the
i32 bit pattern induces on finite float values (nonnegative values in
ascending order after all negative values, the negative values in
descending value order), and the position-history file format, where a
float is modelled by its 32-bit pattern.  Rust panics and failed asserts
are modelled by Option, with none for the panic.
-/

/-- NodeId, a dense index in [0, N). -/
abbrev NodeId := ℕ

/-- The D-dimensional vector of src/dvec.rs, with the 32-bit float
components modelled as exact rationals. -/
abbrev DVec (D : ℕ) := Fin D → ℚ

/-- Component read `v[d]` with a runtime dimension index, as used by the
tree code (`position(*i)[depth]`); the out-of-range case (a panic in Rust)
returns 0 and is never exercised below since depth stays below D. -/
def coord {D : ℕ} (p : DVec D) (d : ℕ) : ℚ :=
  if h : d < D then p ⟨d, h⟩ else 0

/-- `DVec::distance_squared`: squared Euclidean distance. -/
def distSq {D : ℕ} (a b : DVec D) : ℚ :=
  ∑ i, (a i - b i) ^ 2

/-- `DVec::magnitude_squared`. -/
def magSq {D : ℕ} (a : DVec D) : ℚ :=
  ∑ i, (a i) ^ 2

/-- Indexing into a `Vec<DVec<D>>` of positions. -/
def posAt {D : ℕ} (P : List (DVec D)) (i : ℕ) : DVec D :=
  P.getD i (fun _ => 0)

/-- Indexing into a list of node weights. -/
def wAt (W : List ℚ) (i : ℕ) : ℚ :=
  W.getD i 0

theorem nat_le_mul_self (n : ℕ) : n ≤ n * n := by
  cases n with
  | zero => exact le_rfl
  | succ m => exact Nat.le_mul_of_pos_left _ (Nat.succ_pos m)

/-- Least natural number whose square is at least `t`. -/
def natSqrtUp (t : ℕ) : ℕ :=
  Nat.find (p := fun s => t ≤ s * s) ⟨t, nat_le_mul_self t⟩

theorem natSqrtUp_le_sq (t : ℕ) : t ≤ natSqrtUp t * natSqrtUp t :=
  Nat.find_spec (p := fun s => t ≤ s * s) ⟨t, nat_le_mul_self t⟩

theorem natSqrtUp_sq (k : ℕ) : natSqrtUp (k * k) = k := by
  unfold natSqrtUp
  apply le_antisymm
  · exact Nat.find_le le_rfl
  · by_contra h
    push_neg at h
    have hspec : k * k ≤ natSqrtUp (k * k) * natSqrtUp (k * k) := natSqrtUp_le_sq _
    unfold natSqrtUp at hspec
    nlinarith

/-- Model of the 32-bit float square root: the exact rational square root
when the argument is a perfect square of a rational, rounded up to the
next bound otherwise, and 0 on nonpositive input. -/
def ratSqrt (q : ℚ) : ℚ :=
  if q ≤ 0 then 0
  else (natSqrtUp (q.num.toNat * q.den) : ℚ) / (q.den : ℚ)

theorem ratSqrt_nonneg (q : ℚ) : 0 ≤ ratSqrt q := by
  unfold ratSqrt
  split
  · exact le_rfl
  · positivity

theorem ratSqrt_nonpos (q : ℚ) (h : q ≤ 0) : ratSqrt q = 0 := by
  unfold ratSqrt
  simp [h]

theorem ratSqrt_sq_ge (q : ℚ) : q ≤ (ratSqrt q) ^ 2 := by
  unfold ratSqrt
  split
  · next h => simpa using h
  · next h =>
    push_neg at h
    have key : (q.num.toNat * q.den : ℕ) ≤
        natSqrtUp (q.num.toNat * q.den) * natSqrtUp (q.num.toNat * q.den) :=
      natSqrtUp_le_sq _
    have hden : (0 : ℚ) < (q.den : ℚ) := by exact_mod_cast q.pos
    rw [div_pow, le_div_iff₀ (by positivity)]
    have hq' : q * (q.den : ℚ) ^ 2 = (q.num : ℚ) * q.den := by
      rw [sq]
      nth_rewrite 1 [← Rat.num_div_den q]
      field_simp
      ring
    have hnn : ((q.num.toNat : ℕ) : ℚ) = (q.num : ℚ) := by
      exact_mod_cast Int.toNat_of_nonneg (Rat.num_pos.mpr h).le
    rw [hq', ← hnn]
    calc ((q.num.toNat : ℕ) : ℚ) * q.den
        = ((q.num.toNat * q.den : ℕ) : ℚ) := by push_cast; ring
      _ ≤ ((natSqrtUp (q.num.toNat * q.den) * natSqrtUp (q.num.toNat * q.den) : ℕ) : ℚ) := by
          exact_mod_cast key
      _ = ((natSqrtUp (q.num.toNat * q.den) : ℚ)) ^ 2 := by push_cast; ring

/-- On a square of a nonnegative rational the model square root is exact,
like the machine operation. -/
theorem ratSqrt_of_sq (a : ℚ) (ha : 0 ≤ a) : ratSqrt (a ^ 2) = a := by
  rcases ha.eq_or_lt with h0 | hpos
  · rw [← h0]
    simpa using ratSqrt_nonpos 0 le_rfl
  · have hna : (0 : ℤ) < a.num := Rat.num_pos.mpr hpos
    have hk : a.num = (a.num.toNat : ℤ) := (Int.toNat_of_nonneg hna.le).symm
    have hsqpos : (0 : ℚ) < a ^ 2 := by positivity
    unfold ratSqrt
    rw [if_neg (not_le.mpr hsqpos)]
    have hnum : (a ^ 2).num = a.num * a.num := by rw [sq, Rat.mul_self_num]
    have hdenom : (a ^ 2).den = a.den * a.den := by rw [sq, Rat.mul_self_den]
    have harg : (a ^ 2).num.toNat * (a ^ 2).den
        = (a.num.toNat * a.den) * (a.num.toNat * a.den) := by
      rw [hnum, hdenom, hk]
      norm_cast
      ring
    rw [harg, natSqrtUp_sq, hdenom]
    have hdpos : (0 : ℚ) < (a.den : ℚ) := by exact_mod_cast a.pos
    push_cast
    rw [mul_comm (a.den : ℚ) (a.den : ℚ)]
    rw [mul_div_mul_right _ _ (ne_of_gt hdpos)]
    have : ((a.num.toNat : ℕ) : ℚ) = (a.num : ℚ) := by exact_mod_cast hk.symm
    rw [this, Rat.num_div_den]

theorem ratSqrt_pos (q : ℚ) (h : 0 < q) : 0 < ratSqrt q := by
  rcases (ratSqrt_nonneg q).eq_or_lt with h0 | h0
  · exfalso
    have := ratSqrt_sq_ge q
    rw [← h0] at this
    simp at this
    exact absurd this (not_le.mpr h)
  · exact h0

theorem distSq_nonneg {D : ℕ} (a b : DVec D) : 0 ≤ distSq a b := by
  unfold distSq
  positivity

theorem distSq_comm {D : ℕ} (a b : DVec D) : distSq a b = distSq b a := by
  unfold distSq
  congr 1
  funext i
  ring

theorem distSq_eq_zero_iff {D : ℕ} (a b : DVec D) : distSq a b = 0 ↔ a = b := by
  unfold distSq
  constructor
  · intro h
    funext i
    have hterm : ∀ j ∈ Finset.univ (α := Fin D), (0 : ℚ) ≤ (a j - b j) ^ 2 :=
      fun j _ => sq_nonneg _
    have := (Finset.sum_eq_zero_iff_of_nonneg hterm).mp h i (Finset.mem_univ i)
    have := sq_eq_zero_iff.mp this
    linarith
  · intro h
    subst h
    simp

/-- A single coordinate difference squared bounds the squared distance
from below. -/
theorem coord_sq_le_distSq {D : ℕ} (a b : DVec D) (d : ℕ) (hd : d < D) :
    (coord a d - coord b d) ^ 2 ≤ distSq a b := by
  unfold coord distSq
  rw [dif_pos hd, dif_pos hd]
  exact Finset.single_le_sum (f := fun i => (a i - b i) ^ 2)
    (fun i _ => sq_nonneg _) (Finset.mem_univ ⟨d, hd⟩)

/-! ## Brute-force index (src/embedding.rs) -/

/-- `Embedding::nearest_neighbors` (src/embedding.rs lines 40-60): walk the
graph nodes zipped with the positions, enumerated and truncated to the
first `index` entries, and append to `results` every index `i` whose
squared distance to the query position is strictly below
`(own_weight * node.weight)^2 * radius`. -/
def bruteNearestNeighbors {D : ℕ} (W : List ℚ) (P : List (DVec D)) (v : NodeId)
    (radius : ℚ) (out : List NodeId) : List NodeId :=
  out ++ ((W.zip P).enum.take v).filterMap
    (fun x => if distSq (posAt P v) x.2.2 < (wAt W v * x.2.1) ^ 2 * radius
      then some x.1 else none)

theorem mem_enum_take_iff {α : Type*} {l : List α} {v i : ℕ} {a : α} :
    (i, a) ∈ l.enum.take v ↔ i < v ∧ l[i]? = some a := by
  constructor
  · intro h
    obtain ⟨j, hj, hget⟩ := List.mem_iff_getElem.mp h
    have hjmin : j < min v l.enum.length := by
      have := List.length_take v l.enum
      omega
    have hjlen : j < l.enum.length := lt_of_lt_of_le hjmin (min_le_right _ _)
    rw [List.getElem_take, List.getElem_enum] at hget
    have hji : j = i := congrArg Prod.fst hget
    have hjl : j < l.length := by simpa using hjlen
    have hla : l[j] = a := congrArg Prod.snd hget
    subst hji
    refine ⟨lt_of_lt_of_le hjmin (min_le_left _ _), ?_⟩
    rw [List.getElem?_eq_getElem (by simpa using hjlen)]
    exact congrArg some hla
  · rintro ⟨hiv, hget⟩
    obtain ⟨hilen, hla⟩ := List.getElem?_eq_some.mp hget
    apply List.mem_iff_getElem.mpr
    have hienum : i < l.enum.length := by simpa using hilen
    refine ⟨i, ?_, ?_⟩
    · rw [List.length_take]
      omega
    · rw [List.getElem_take, List.getElem_enum]
      rw [Prod.mk.injEq]
      exact ⟨rfl, hla⟩

theorem pairwise_fst_lt_enum_take {α : Type*} (l : List α) (v : ℕ) :
    List.Pairwise (fun x y : ℕ × α => x.1 < y.1) (l.enum.take v) := by
  apply List.Pairwise.sublist (List.take_sublist v l.enum)
  rw [List.pairwise_iff_getElem]
  intro i j hi hj hij
  rw [List.getElem_enum, List.getElem_enum]
  exact hij

theorem wAt_eq {W : List ℚ} {u : ℕ} (h : u < W.length) : wAt W u = W[u] := by
  unfold wAt
  rw [List.getD_eq_getElem?_getD, List.getElem?_eq_getElem h]
  rfl

theorem posAt_eq {D : ℕ} {P : List (DVec D)} {u : ℕ} (h : u < P.length) :
    posAt P u = P[u] := by
  unfold posAt
  rw [List.getD_eq_getElem?_getD, List.getElem?_eq_getElem h]
  rfl

/-- C2: the brute-force `nearest_neighbors(v, r², out)` appends to `out`
exactly the nodes u < v whose squared distance to the position of v is
strictly below `(weight(v)·weight(u))² · r²` (the u < v restriction being
the allowed asymmetry policy), in strictly increasing order of u, leaving
the previous contents of `out` intact. -/
theorem brute_nn_appends_exactly {D : ℕ} (W : List ℚ) (P : List (DVec D))
    (v : NodeId) (radius : ℚ) (out : List NodeId)
    (hv : v ≤ P.length) (hw : v ≤ W.length) :
    ∃ L, bruteNearestNeighbors W P v radius out = out ++ L ∧
      L.Pairwise (· < ·) ∧
      (∀ u, u ∈ L ↔ u < v ∧
        distSq (posAt P v) (posAt P u) < (wAt W v * wAt W u) ^ 2 * radius) := by
  unfold bruteNearestNeighbors
  refine ⟨_, rfl, ?_, ?_⟩
  · apply List.Pairwise.filterMap
      (f := fun x : ℕ × ℚ × DVec D =>
        if distSq (posAt P v) x.2.2 < (wAt W v * x.2.1) ^ 2 * radius
        then some x.1 else none)
    · intro x y hxy b hb b' hb'
      have hbx : b = x.1 := by
        by_cases hc : distSq (posAt P v) x.2.2 < (wAt W v * x.2.1) ^ 2 * radius
        · rw [if_pos hc] at hb
          simpa using hb.symm
        · rw [if_neg hc] at hb
          simp at hb
      have hby : b' = y.1 := by
        by_cases hc : distSq (posAt P v) y.2.2 < (wAt W v * y.2.1) ^ 2 * radius
        · rw [if_pos hc] at hb'
          simpa using hb'.symm
        · rw [if_neg hc] at hb'
          simp at hb'
      rw [hbx, hby]
      exact hxy
    · exact pairwise_fst_lt_enum_take _ v
  · intro u
    rw [List.mem_filterMap]
    constructor
    · rintro ⟨⟨i, nw, p⟩, hmem, hf⟩
      rw [mem_enum_take_iff] at hmem
      obtain ⟨hiv, hget⟩ := hmem
      rw [← List.get?_eq_getElem?] at hget
      obtain ⟨hW, hP⟩ := (List.get?_zip_eq_some _ _ _ _).mp hget
      have hwa : wAt W i = nw := by
        unfold wAt
        rw [List.getD_eq_getElem?_getD, ← List.get?_eq_getElem?, hW]
        rfl
      have hpa : posAt P i = p := by
        unfold posAt
        rw [List.getD_eq_getElem?_getD, ← List.get?_eq_getElem?, hP]
        rfl
      by_cases hc : distSq (posAt P v) p < (wAt W v * nw) ^ 2 * radius
      · rw [if_pos hc] at hf
        have hui : i = u := by simpa using hf
        subst hui
        rw [← hwa, ← hpa] at hc
        exact ⟨hiv, hc⟩
      · rw [if_neg hc] at hf
        simp at hf
    · rintro ⟨huv, hdist⟩
      have hup : u < P.length := lt_of_lt_of_le huv hv
      have huw : u < W.length := lt_of_lt_of_le huv hw
      refine ⟨(u, wAt W u, posAt P u), ?_, ?_⟩
      · rw [mem_enum_take_iff]
        refine ⟨huv, ?_⟩
        rw [← List.get?_eq_getElem?]
        apply (List.get?_zip_eq_some _ _ _ _).mpr
        constructor
        · rw [List.get?_eq_getElem?, List.getElem?_eq_getElem huw]
          rw [wAt_eq huw]
        · rw [List.get?_eq_getElem?, List.getElem?_eq_getElem hup]
          rw [posAt_eq hup]
      · rw [if_pos hdist]

/-- Concrete three-node position list used by the C2 witness. -/
def exPos3 : List (DVec 2) :=
  [(fun _ => 0), (fun i => if i.1 = 0 then 1/2 else 0),
    (fun i => if i.1 = 0 then 1 else 0)]

/-- Witness for C2 at a concrete input: three nodes of weight 1 at
positions (0,0), (1/2,0), (1,0); the theorem applies to the query of node
2 at squared radius 1 with a nonempty output buffer. -/
theorem brute_nn_appends_exactly_witness :
    2 ≤ exPos3.length ∧ 2 ≤ ([1, 1, 1] : List ℚ).length ∧
    ∃ L, bruteNearestNeighbors [1, 1, 1] exPos3 2 1 [7] = [7] ++ L ∧
      L.Pairwise (· < ·) ∧
      (∀ u, u ∈ L ↔ u < 2 ∧
        distSq (posAt exPos3 2) (posAt exPos3 u)
          < (wAt [1, 1, 1] 2 * wAt [1, 1, 1] u) ^ 2 * 1) :=
  ⟨by decide, by decide,
    brute_nn_appends_exactly [1, 1, 1] exPos3 2 1 [7] (by decide) (by decide)⟩

/-! ## The bit-pattern sort key of the tree construction (src/atree.rs)

`Layer::new` sorts its node slice with
`nodes.sort_unstable_by_key(|i| i32::from_ne_bytes(position[i][depth].to_ne_bytes()))`.
On finite IEEE-754 single-precision values the signed 32-bit integer read
of the bit pattern orders all negative values before all nonnegative
values, the nonnegative values among themselves in ascending value order,
and the negative values among themselves in descending value order (the
sign bit makes the key negative and a larger magnitude makes the two:s
complement value larger).  `keyLE` is that order on the modelled values. -/

/-- Order induced on coordinate values by the `i32` read of the f32 bit
pattern. -/
def keyLE (a b : ℚ) : Prop :=
  (a < 0 ∧ b < 0 ∧ b ≤ a) ∨ (a < 0 ∧ 0 ≤ b) ∨ (0 ≤ a ∧ 0 ≤ b ∧ a ≤ b)

instance keyLE.decidableRel : DecidableRel keyLE := fun a b => by
  unfold keyLE
  infer_instance

theorem keyLE_total (a b : ℚ) : keyLE a b ∨ keyLE b a := by
  unfold keyLE
  rcases lt_or_le a 0 with ha | ha <;> rcases lt_or_le b 0 with hb | hb
  · rcases le_total a b with h | h
    · exact Or.inr (Or.inl ⟨hb, ha, h⟩)
    · exact Or.inl (Or.inl ⟨ha, hb, h⟩)
  · exact Or.inl (Or.inr (Or.inl ⟨ha, hb⟩))
  · exact Or.inr (Or.inr (Or.inl ⟨hb, ha⟩))
  · rcases le_total a b with h | h
    · exact Or.inl (Or.inr (Or.inr ⟨ha, hb, h⟩))
    · exact Or.inr (Or.inr (Or.inr ⟨hb, ha, h⟩))

theorem keyLE_trans {a b c : ℚ} (h1 : keyLE a b) (h2 : keyLE b c) : keyLE a c := by
  unfold keyLE at h1 h2 ⊢
  rcases h1 with ⟨ha, hb, hba⟩ | ⟨ha, hb⟩ | ⟨ha, hb, hab⟩ <;>
    rcases h2 with ⟨hb2, hc, hcb⟩ | ⟨hb2, hc⟩ | ⟨hb2, hc, hbc⟩ <;>
    first
      | (left; exact ⟨by linarith, by linarith, by linarith⟩)
      | (right; left; exact ⟨by linarith, by linarith⟩)
      | (right; right; exact ⟨by linarith, by linarith, by linarith⟩)

/-- The nonnegative fragment of the key order agrees with the value
order. -/
theorem keyLE_iff_le_of_nonneg {a b : ℚ} (ha : 0 ≤ a) (hb : 0 ≤ b) :
    keyLE a b ↔ a ≤ b := by
  unfold keyLE
  constructor
  · rintro (⟨h, _, _⟩ | ⟨h, _⟩ | ⟨_, _, h⟩) <;> first | exact h | linarith
  · intro h
    exact Or.inr (Or.inr ⟨ha, hb, h⟩)

/-- The sorting step at the top of every `Layer::new` call
(src/atree.rs line 95): an unstable sort of the node slice by the i32 bit
pattern of the depth coordinate, modelled as a sort by `keyLE` on the
coordinate values. -/
def sortStep {D : ℕ} (pos : NodeId → DVec D) (depth : ℕ)
    (nodes : List NodeId) : List NodeId :=
  List.insertionSort (fun i j => keyLE (coord (pos i) depth) (coord (pos j) depth))
    nodes

theorem sortStep_perm {D : ℕ} (pos : NodeId → DVec D) (depth : ℕ)
    (nodes : List NodeId) : (sortStep pos depth nodes).Perm nodes :=
  List.perm_insertionSort _ nodes

theorem sortStep_sorted_key {D : ℕ} (pos : NodeId → DVec D) (depth : ℕ)
    (nodes : List NodeId) :
    (sortStep pos depth nodes).Pairwise
      (fun i j => keyLE (coord (pos i) depth) (coord (pos j) depth)) := by
  haveI : IsTotal NodeId (fun i j => keyLE (coord (pos i) depth) (coord (pos j) depth)) :=
    ⟨fun i j => keyLE_total _ _⟩
  haveI : IsTrans NodeId (fun i j => keyLE (coord (pos i) depth) (coord (pos j) depth)) :=
    ⟨fun _ _ _ h1 h2 => keyLE_trans h1 h2⟩
  exact List.sorted_insertionSort _ nodes

/-- The two-node position map with coordinates -1 and -2 used to refute
C6. -/
def negPosPair : NodeId → DVec 2 :=
  fun i => if i = 0 then (fun _ => -1) else (fun _ => -2)

/-- C6 counterexample: with negative coordinates the sorting step of
`Layer::new` does not order the node slice by nondecreasing coordinate.
The i32 keys of -1.0 and -2.0 are -1082130432 and -1073741824, so -1.0
sorts before -2.0 although -1.0 > -2.0. -/
theorem sortStep_not_nondecreasing_on_negatives :
    sortStep negPosPair 0 [0, 1] = [0, 1] ∧
    ¬ (coord (negPosPair 0) 0 ≤ coord (negPosPair 1) 0) := by
  constructor
  · show List.insertionSort _ [0, 1] = [0, 1]
    rw [List.insertionSort, List.insertionSort, List.insertionSort]
    rw [List.orderedInsert, List.orderedInsert]
    rw [if_pos]
    norm_num [negPosPair, coord, keyLE]
  · norm_num [negPosPair, coord]

/-- C6 amended: after the sorting step of `Layer::new`, consecutive nodes
have nondecreasing depth coordinates whenever all the coordinates involved
are nonnegative (on nonnegative values the i32 bit-pattern key is
monotone in the value; negative coordinates are mis-ordered, as the
counterexample shows). -/
theorem sortStep_nondecreasing_of_nonneg {D : ℕ} (pos : NodeId → DVec D)
    (depth : ℕ) (nodes : List NodeId)
    (h : ∀ i ∈ nodes, 0 ≤ coord (pos i) depth) :
    ∀ k, k + 1 < (sortStep pos depth nodes).length →
      coord (pos ((sortStep pos depth nodes).getD k 0)) depth ≤
      coord (pos ((sortStep pos depth nodes).getD (k + 1) 0)) depth := by
  intro k hk
  have hsorted := sortStep_sorted_key pos depth nodes
  rw [List.pairwise_iff_getElem] at hsorted
  have hmem : ∀ i ∈ sortStep pos depth nodes, 0 ≤ coord (pos i) depth :=
    fun i hi => h i ((sortStep_perm pos depth nodes).mem_iff.mp hi)
  have hk' : k < (sortStep pos depth nodes).length := by omega
  have hkey := hsorted k (k + 1) hk' hk (by omega)
  have h1 : (sortStep pos depth nodes).getD k 0 = (sortStep pos depth nodes)[k] := by
    rw [List.getD_eq_getElem?_getD, List.getElem?_eq_getElem hk']
    rfl
  have h2 : (sortStep pos depth nodes).getD (k + 1) 0 = (sortStep pos depth nodes)[k + 1] := by
    rw [List.getD_eq_getElem?_getD, List.getElem?_eq_getElem hk]
    rfl
  rw [h1, h2]
  refine (keyLE_iff_le_of_nonneg ?_ ?_).mp hkey
  · exact hmem _ (List.getElem_mem _)
  · exact hmem _ (List.getElem_mem _)

/-- Witness for the amended C6: sorting the two nodes at nonnegative
coordinates 3 and 1 along dimension 0. -/
theorem sortStep_nondecreasing_of_nonneg_witness :
    (∀ i ∈ [0, 1], 0 ≤ coord ((fun j => if j = 0 then (fun _ => 3)
        else (fun _ => 1) : NodeId → DVec 2) i) 0) ∧
    ∀ k, k + 1 < (sortStep (fun j => if j = 0 then (fun _ => 3)
        else (fun _ => 1) : NodeId → DVec 2) 0 [0, 1]).length →
      coord ((fun j => if j = 0 then (fun _ => 3) else (fun _ => 1) :
          NodeId → DVec 2) ((sortStep (fun j => if j = 0 then (fun _ => 3)
        else (fun _ => 1) : NodeId → DVec 2) 0 [0, 1]).getD k 0)) 0 ≤
      coord ((fun j => if j = 0 then (fun _ => 3) else (fun _ => 1) :
          NodeId → DVec 2) ((sortStep (fun j => if j = 0 then (fun _ => 3)
        else (fun _ => 1) : NodeId → DVec 2) 0 [0, 1]).getD (k + 1) 0)) 0 :=
  ⟨by intro i hi
      fin_cases hi <;> norm_num [coord],
   sortStep_nondecreasing_of_nonneg _ 0 [0, 1]
     (by intro i hi
         fin_cases hi <;> norm_num [coord])⟩

/-! ## Repulsion force (src/embedder.rs lines 378-401) -/

/-- Scalar multiplication `DVec * f32` of src/dvec.rs (elementwise). -/
def scaleDVec {D : ℕ} (a : DVec D) (c : ℚ) : DVec D :=
  fun i => a i * c

/-- `DVec::magnitude`. -/
def magnitude {D : ℕ} (a : DVec D) : ℚ :=
  ratSqrt (magSq a)

theorem magSq_sub_eq_distSq {D : ℕ} (a b : DVec D) :
    magSq (a - b) = distSq a b := by
  unfold magSq distSq
  rfl

/-- `WEmbedder::repulsion_force(v, u)`: direction `pos_v - pos_u`; on zero
distance a random jitter vector is returned, modelled by the `jitter`
parameter; otherwise zero if the weighted distance exceeds 1, else the
direction scaled by `repulsion_scale / (distance · w_v · w_u)`. -/
def repulsionForce {D : ℕ} (scale : ℚ) (W : List ℚ) (P : List (DVec D))
    (jitter : DVec D) (v u : NodeId) : DVec D :=
  let dir := posAt P v - posAt P u
  let dist := magnitude dir
  if dist = 0 then jitter
  else
    let wf := wAt W v * wAt W u
    let wd := dist / wf
    if 1 < wd then 0
    else scaleDVec dir (scale / (dist * wf))

/-- Two nodes at distance 1: positions (1,0) and (0,0). -/
def pairAtDistOne : List (DVec 2) :=
  [(fun i => if i.1 = 0 then 1 else 0), (fun _ => 0)]

/-- Two nodes at distance 1/2: positions (1/2,0) and (0,0). -/
def pairAtDistHalf : List (DVec 2) :=
  [(fun i => if i.1 = 0 then 1/2 else 0), (fun _ => 0)]

/-- C7 counterexample: at weighted distance exactly 1 the code does not
return the zero vector.  Two unit-weight nodes at distance 1: the claim
says the force is zero whenever the weighted distance is at least 1, but
the code tests `weighted_distance > 1.0` and so applies the full
repulsion force here. -/
theorem repulsion_force_nonzero_at_weighted_distance_one :
    magnitude (posAt pairAtDistOne 0 - posAt pairAtDistOne 1) /
      (wAt [1, 1] 0 * wAt [1, 1] 1) = 1 ∧
    repulsionForce 1 [1, 1] pairAtDistOne (fun _ => 0) 0 1 ≠ 0 := by
  have hdir : (posAt pairAtDistOne 0 - posAt pairAtDistOne 1) =
      (fun i : Fin 2 => if i.1 = 0 then (1 : ℚ) else 0) := by
    funext i
    show posAt pairAtDistOne 0 i - posAt pairAtDistOne 1 i = _
    simp [posAt, pairAtDistOne]
  have hms : magSq (fun i : Fin 2 => if i.1 = 0 then (1 : ℚ) else 0) = 1 := by
    unfold magSq
    rw [Fin.sum_univ_two]
    norm_num
  have hmag : magnitude (fun i : Fin 2 => if i.1 = 0 then (1 : ℚ) else 0) = 1 := by
    unfold magnitude
    rw [hms]
    simpa using ratSqrt_of_sq 1 (by norm_num)
  have hw : wAt [1, 1] 0 * wAt [1, 1] 1 = 1 := by norm_num [wAt]
  constructor
  · rw [hdir, hmag, hw]
    norm_num
  · simp only [repulsionForce]
    rw [hdir, hmag, hw]
    rw [if_neg (by norm_num)]
    rw [if_neg (by norm_num)]
    intro hcontra
    have := congrFun hcontra ⟨0, by norm_num⟩
    simp [scaleDVec] at this

/-- C7 amended: for distinct positions the repulsion force on v from u is
zero whenever the weighted distance `d/(w_v·w_u)` is strictly greater
than 1, and otherwise (weighted distance at most 1, the boundary case
included) equals `(p_v - p_u) · repulsion_scale/(d·w_v·w_u)` where d is
the distance. -/
theorem repulsion_force_characterization {D : ℕ} (scale : ℚ) (W : List ℚ)
    (P : List (DVec D)) (jitter : DVec D) (v u : NodeId)
    (hne : posAt P v ≠ posAt P u) :
    (1 < magnitude (posAt P v - posAt P u) / (wAt W v * wAt W u) →
      repulsionForce scale W P jitter v u = 0) ∧
    (magnitude (posAt P v - posAt P u) / (wAt W v * wAt W u) ≤ 1 →
      repulsionForce scale W P jitter v u =
        scaleDVec (posAt P v - posAt P u)
          (scale / (magnitude (posAt P v - posAt P u) * (wAt W v * wAt W u)))) := by
  have hmsne : magSq (posAt P v - posAt P u) ≠ 0 := by
    rw [magSq_sub_eq_distSq]
    intro h
    exact hne ((distSq_eq_zero_iff _ _).mp h)
  have hmspos : 0 < magSq (posAt P v - posAt P u) := by
    rcases (distSq_nonneg (posAt P v) (posAt P u)).eq_or_lt with h | h
    · exact absurd (magSq_sub_eq_distSq _ _ ▸ h.symm) hmsne
    · rw [magSq_sub_eq_distSq]
      exact h
  have hdist : magnitude (posAt P v - posAt P u) ≠ 0 :=
    ne_of_gt (ratSqrt_pos _ hmspos)
  constructor
  · intro hgt
    simp only [repulsionForce]
    rw [if_neg hdist, if_pos hgt]
  · intro hle
    simp only [repulsionForce]
    rw [if_neg hdist, if_neg (not_lt.mpr hle)]

/-- Witness for the amended C7 at two unit-weight nodes at distance 1/2. -/
theorem repulsion_force_characterization_witness :
    (posAt pairAtDistHalf 0 ≠ posAt pairAtDistHalf 1) ∧
    ((1 < magnitude (posAt pairAtDistHalf 0 - posAt pairAtDistHalf 1) /
        (wAt [1, 1] 0 * wAt [1, 1] 1) →
      repulsionForce 1 [1, 1] pairAtDistHalf (fun _ => 0) 0 1 = 0) ∧
    (magnitude (posAt pairAtDistHalf 0 - posAt pairAtDistHalf 1) /
        (wAt [1, 1] 0 * wAt [1, 1] 1) ≤ 1 →
      repulsionForce 1 [1, 1] pairAtDistHalf (fun _ => 0) 0 1 =
        scaleDVec (posAt pairAtDistHalf 0 - posAt pairAtDistHalf 1)
          (1 / (magnitude (posAt pairAtDistHalf 0 - posAt pairAtDistHalf 1) *
            (wAt [1, 1] 0 * wAt [1, 1] 1))))) :=
  ⟨by intro h
      have := congrFun h ⟨0, by norm_num⟩
      norm_num [posAt, pairAtDistHalf] at this,
   repulsion_force_characterization 1 [1, 1] pairAtDistHalf (fun _ => 0) 0 1
     (by intro h
         have := congrFun h ⟨0, by norm_num⟩
         norm_num [posAt, pairAtDistHalf] at this)⟩

/-! ## Graph construction and node weights (src/graph.rs lines 65-101) -/

/-- One step of the degree-count loop of `Graph::from_edge_list`: resize
the degree vector to `max u v + 1` when too short, then increment the
count of both endpoints. -/
def bumpDegrees (deg : List ℕ) (e : ℕ × ℕ) : List ℕ :=
  let m := max e.1 e.2
  let deg1 := if deg.length ≤ m then deg ++ List.replicate (m + 1 - deg.length) 0 else deg
  let deg2 := deg1.set e.1 (deg1.getD e.1 0 + 1)
  deg2.set e.2 (deg2.getD e.2 0 + 1)

/-- The degree vector computed by `Graph::from_edge_list`. -/
def nodeDegrees (edges : List (ℕ × ℕ)) : List ℕ :=
  edges.foldl bumpDegrees []

/-- The node weight computed by `Graph::from_edge_list`:
`((deg_i)^(dim_ratio) * weight_norm)^(1/embedding_dim)` with
`dim_ratio = D/H` and `weight_norm = N/total_weight`. -/
noncomputable def graphWeight (edges : List (ℕ × ℕ)) (D H : ℕ) (i : ℕ) : ℝ :=
  (((nodeDegrees edges).getD i 0 : ℝ) ^ ((D : ℝ) / (H : ℝ)) *
    (((nodeDegrees edges).length : ℝ) / ((nodeDegrees edges).sum : ℝ))) ^
    ((1 : ℝ) / (D : ℝ))

/-- The weight formula in the words of the spec:
`((deg(v))^(D/H) · N/Σdeg)^(1/D)`. -/
noncomputable def specNodeWeight (edges : List (ℕ × ℕ)) (D H : ℕ) (i : ℕ) : ℝ :=
  (((nodeDegrees edges).getD i 0 : ℝ) ^ ((D : ℝ) / (H : ℝ)) *
    ((nodeDegrees edges).length : ℝ) / ((nodeDegrees edges).sum : ℝ)) ^
    ((1 : ℝ) / (D : ℝ))

/-- C8 counterexample: the edge list [(0,2)] creates three nodes; node 1
occurs in no edge, has degree 0, and receives weight
`(0^(D/H) · N/Σdeg)^(1/D) = 0`, so not every node weight is strictly
positive. -/
theorem graph_weight_zero_for_isolated_node :
    (nodeDegrees [(0, 2)]).length = 3 ∧ graphWeight [(0, 2)] 2 2 1 = 0 := by
  have hdeg : nodeDegrees [(0, 2)] = [1, 0, 1] := by decide
  constructor
  · rw [hdeg]
    rfl
  · simp only [graphWeight]
    rw [hdeg]
    show (((0 : ℕ) : ℝ) ^ ((2 : ℝ) / (2 : ℝ)) * (((3 : ℕ) : ℝ) / ((2 : ℕ) : ℝ))) ^
      ((1 : ℝ) / (2 : ℝ)) = 0
    rw [Nat.cast_zero, Real.zero_rpow (by norm_num), zero_mul,
      Real.zero_rpow (by norm_num)]

/-- C8 amended: after graph construction every node weight equals
`((deg(v))^(D/H) · N/Σdeg)^(1/D)`, and the weight of every node with at
least one incident edge is strictly positive (nodes inside the index
range that occur in no edge have degree 0 and weight 0). -/
theorem graph_weight_formula_and_positive (edges : List (ℕ × ℕ)) (D H : ℕ)
    (v : ℕ) (hD : 0 < D) (hH : 0 < H)
    (hv : v < (nodeDegrees edges).length)
    (hdeg : 0 < (nodeDegrees edges).getD v 0) :
    graphWeight edges D H v = specNodeWeight edges D H v ∧
    0 < graphWeight edges D H v := by
  constructor
  · simp only [graphWeight, specNodeWeight]
    rw [mul_div_assoc]
  · simp only [graphWeight]
    apply Real.rpow_pos_of_pos
    apply mul_pos
    · apply Real.rpow_pos_of_pos
      exact_mod_cast hdeg
    · apply div_pos
      · exact_mod_cast lt_of_le_of_lt (Nat.zero_le v) hv
      · have hmem : (nodeDegrees edges).getD v 0 ∈ nodeDegrees edges := by
          rw [List.getD_eq_getElem?_getD, List.getElem?_eq_getElem hv]
          exact List.getElem_mem _
        have hle : (nodeDegrees edges).getD v 0 ≤ (nodeDegrees edges).sum :=
          List.single_le_sum (fun x _ => Nat.zero_le x) _ hmem
        exact_mod_cast lt_of_lt_of_le hdeg hle

/-- Witness for the amended C8: the single edge (0,1) with D = H = 2 gives
node 0 degree 1 and a strictly positive weight. -/
theorem graph_weight_formula_and_positive_witness :
    0 < 2 ∧ 0 < 2 ∧ 0 < (nodeDegrees [(0, 1)]).length ∧
    0 < (nodeDegrees [(0, 1)]).getD 0 0 ∧
    (graphWeight [(0, 1)] 2 2 0 = specNodeWeight [(0, 1)] 2 2 0 ∧
      0 < graphWeight [(0, 1)] 2 2 0) :=
  ⟨by decide, by decide, by decide, by decide,
    graph_weight_formula_and_positive [(0, 1)] 2 2 0 (by decide) (by decide)
      (by decide) (by decide)⟩

/-! ## Batched symmetrizing query (src/query.rs lines 75-88) -/

/-- `Vec::dedup`: remove consecutive duplicate entries. -/
def dedupConsec : List ℕ → List ℕ
  | [] => []
  | [a] => [a]
  | a :: b :: rest =>
    if a = b then dedupConsec (b :: rest) else a :: dedupConsec (b :: rest)

theorem mem_dedupConsec : ∀ (l : List ℕ) (x : ℕ), x ∈ dedupConsec l ↔ x ∈ l
  | [], x => by simp [dedupConsec]
  | [a], x => by simp [dedupConsec]
  | a :: b :: rest, x => by
    by_cases hab : a = b
    · rw [dedupConsec, if_pos hab]
      rw [mem_dedupConsec (b :: rest) x]
      subst hab
      simp
    · rw [dedupConsec, if_neg hab]
      simp only [List.mem_cons]
      rw [mem_dedupConsec (b :: rest) x]
      simp

theorem dedupConsec_pairwise_lt :
    ∀ (l : List ℕ), l.Pairwise (· ≤ ·) → (dedupConsec l).Pairwise (· < ·)
  | [], _ => by simp [dedupConsec]
  | [a], _ => by simp [dedupConsec]
  | a :: b :: rest, h => by
    have htail : (b :: rest).Pairwise (· ≤ ·) := h.of_cons
    have hb : ∀ x ∈ b :: rest, a ≤ x := fun x hx => List.rel_of_pairwise_cons h hx
    by_cases hab : a = b
    · rw [dedupConsec, if_pos hab]
      exact dedupConsec_pairwise_lt (b :: rest) htail
    · rw [dedupConsec, if_neg hab]
      refine List.pairwise_cons.mpr ⟨?_, dedupConsec_pairwise_lt (b :: rest) htail⟩
      intro x hx
      rw [mem_dedupConsec] at hx
      have hax : a ≤ b := hb b (by simp)
      have hab' : a < b := lt_of_le_of_ne hax hab
      rcases List.mem_cons.mp hx with rfl | hx'
      · exact hab'
      · exact lt_of_lt_of_le hab' (List.rel_of_pairwise_cons htail hx')

/-- The row of pushes that the default `Query::nearest_neighbors_batched`
produces for slot v before sorting, when run on `indices = [0, N)`: for
each queried index i and each reported neighbor o, `results[o]` receives
a push of i and `results[i]` receives a push of o, in that order. -/
def batchedRow (nn : ℕ → List ℕ) (N v : ℕ) : List ℕ :=
  (List.range N).flatMap (fun i => (nn i).flatMap (fun o =>
    (if o = v then [i] else []) ++ (if i = v then [o] else [])))

/-- The default `Query::nearest_neighbors_batched` called with
`indices = [0, N)` (the only call shape the claims exercise): each result
row is sorted with `sort_unstable` and deduplicated with `dedup`.  The
model assumes every reported neighbor id is below N; out of range ids
panic in Rust. -/
def nearestNeighborsBatched (nn : ℕ → List ℕ) (N : ℕ) : List (List ℕ) :=
  (List.range N).map
    (fun v => dedupConsec (List.insertionSort (· ≤ ·) (batchedRow nn N v)))

theorem batchedRow_mem (nn : ℕ → List ℕ) (N v u : ℕ) :
    u ∈ batchedRow nn N v ↔ (u < N ∧ v ∈ nn u) ∨ (v < N ∧ u ∈ nn v) := by
  unfold batchedRow
  rw [List.mem_flatMap]
  constructor
  · rintro ⟨i, hi, hmem⟩
    rw [List.mem_flatMap] at hmem
    obtain ⟨o, ho, humem⟩ := hmem
    rw [List.mem_append] at humem
    rw [List.mem_range] at hi
    rcases humem with h1 | h2
    · by_cases hov : o = v
      · rw [if_pos hov] at h1
        simp only [List.mem_singleton] at h1
        subst h1
        subst hov
        exact Or.inl ⟨hi, ho⟩
      · rw [if_neg hov] at h1
        simp at h1
    · by_cases hiv : i = v
      · rw [if_pos hiv] at h2
        simp only [List.mem_singleton] at h2
        subst h2
        subst hiv
        exact Or.inr ⟨hi, ho⟩
      · rw [if_neg hiv] at h2
        simp at h2
  · rintro (⟨hu, hv⟩ | ⟨hv, hu⟩)
    · refine ⟨u, List.mem_range.mpr hu, ?_⟩
      rw [List.mem_flatMap]
      refine ⟨v, hv, ?_⟩
      rw [List.mem_append]
      left
      rw [if_pos rfl]
      simp
    · refine ⟨v, List.mem_range.mpr hv, ?_⟩
      rw [List.mem_flatMap]
      refine ⟨u, hu, ?_⟩
      rw [List.mem_append]
      right
      rw [if_pos rfl]
      simp

theorem batched_row_at (nn : ℕ → List ℕ) (N v : ℕ) (hv : v < N) :
    (nearestNeighborsBatched nn N).getD v [] =
      dedupConsec (List.insertionSort (· ≤ ·) (batchedRow nn N v)) := by
  unfold nearestNeighborsBatched
  rw [List.getD_eq_getElem?_getD, List.getElem?_map, List.getElem?_range hv]
  rfl

theorem mem_batched_result (nn : ℕ → List ℕ) (N v u : ℕ) (hv : v < N) :
    u ∈ (nearestNeighborsBatched nn N).getD v [] ↔
      (u < N ∧ v ∈ nn u) ∨ (v < N ∧ u ∈ nn v) := by
  rw [batched_row_at nn N v hv, mem_dedupConsec]
  rw [(List.perm_insertionSort (· ≤ ·) (batchedRow nn N v)).mem_iff]
  exact batchedRow_mem nn N v u

/-- C10: for any Query implementation (modelled by its radius-1 result
function nn, assumed to report ids below N, since the Rust code indexes
`results[other_node_id]` and panics otherwise), the default
`nearest_neighbors_batched` on `indices = [0, N)` produces rows that are
strictly increasing (hence sorted and duplicate free) and symmetric:
u appears in row v exactly when v appears in row u. -/
theorem batched_rows_strictly_increasing_and_symmetric (nn : ℕ → List ℕ)
    (N : ℕ) (_hrange : ∀ i < N, ∀ o ∈ nn i, o < N) (u v : ℕ)
    (hu : u < N) (hv : v < N) :
    ((nearestNeighborsBatched nn N).getD v []).Pairwise (· < ·) ∧
    (u ∈ (nearestNeighborsBatched nn N).getD v [] ↔
      v ∈ (nearestNeighborsBatched nn N).getD u []) := by
  constructor
  · rw [batched_row_at nn N v hv]
    apply dedupConsec_pairwise_lt
    exact List.sorted_insertionSort (· ≤ ·) (batchedRow nn N v)
  · rw [mem_batched_result nn N v u hv, mem_batched_result nn N u v hu]
    constructor
    · rintro (h | h)
      · exact Or.inr h
      · exact Or.inl h
    · rintro (h | h)
      · exact Or.inr h
      · exact Or.inl h

/-- Witness for C10: two nodes, the query for node 0 reports node 1 and
the query for node 1 reports nothing; the batched driver still produces
symmetric rows. -/
theorem batched_rows_strictly_increasing_and_symmetric_witness :
    (∀ i < 2, ∀ o ∈ (fun j => if j = 0 then [1] else []) i, o < 2) ∧
    (((nearestNeighborsBatched (fun j => if j = 0 then [1] else []) 2).getD 1 []).Pairwise (· < ·) ∧
    ((0 : ℕ) ∈ (nearestNeighborsBatched (fun j => if j = 0 then [1] else []) 2).getD 1 [] ↔
      (1 : ℕ) ∈ (nearestNeighborsBatched (fun j => if j = 0 then [1] else []) 2).getD 0 [])) :=
  ⟨by decide,
   batched_rows_strictly_increasing_and_symmetric
     (fun j => if j = 0 then [1] else []) 2 (by decide) 0 1 (by decide) (by decide)⟩

/-! ## Binary position-history format (src/parsing.rs)

The file is modelled as a list of bytes (naturals below 256 in well formed
files); a 32-bit float is represented by its bit pattern, a natural below
2^32, since the round-trip claim is about bit-identical floats.  The
memory mapped reinterpretation of the position block in
`parse_positions_file` matches the little-endian `to_le_bytes` writes of
`write_test_file` on the little-endian platforms the crate targets. -/

/-- Little-endian encoding of `x` in `k` bytes (`u64::to_le_bytes`,
`f32::to_le_bytes` on the bit pattern). -/
def leBytes : ℕ → ℕ → List ℕ
  | 0, _ => []
  | k + 1, x => (x % 256) :: leBytes k (x / 256)

/-- Little-endian decoding (`u64::from_le_bytes`,
`f32::from_le_bytes`). -/
def fromLEBytes (bs : List ℕ) : ℕ :=
  bs.foldr (fun b acc => b + 256 * acc) 0

theorem leBytes_length : ∀ (k x : ℕ), (leBytes k x).length = k
  | 0, _ => rfl
  | k + 1, x => by
    rw [leBytes]
    simp [leBytes_length k]

theorem fromLEBytes_leBytes : ∀ (k x : ℕ), x < 256 ^ k →
    fromLEBytes (leBytes k x) = x
  | 0, x, h => by
    interval_cases x
    rfl
  | k + 1, x, h => by
    rw [leBytes]
    show x % 256 + 256 * fromLEBytes (leBytes k (x / 256)) = x
    rw [fromLEBytes_leBytes k (x / 256) (by
      rw [pow_succ] at h
      omega)]
    omega

/-- The byte block of one position row: `for i in 0..D` write
`position[i].to_le_bytes()`. -/
def rowBytes (D : ℕ) (p : List ℕ) : List ℕ :=
  (List.range D).flatMap (fun i => leBytes 4 (p.getD i 0))

/-- The byte block of one snapshot body (all rows). -/
def snapBodyBytes (D : ℕ) (rows : List (List ℕ)) : List ℕ :=
  rows.flatMap (rowBytes D)

/-- All snapshots: 8-byte iteration number followed by the body. -/
def writeSnapshots (D : ℕ) (iters : List (ℕ × List (List ℕ))) : List ℕ :=
  iters.flatMap (fun it => leBytes 8 it.1 ++ snapBodyBytes D it.2)

/-- `write_test_file` (src/parsing.rs lines 72-100): errors on an empty
iteration list, else writes the node count of the first snapshot and D as
little-endian u64, then every snapshot. -/
def writeTestFile (D : ℕ) (iters : List (ℕ × List (List ℕ))) : Option (List ℕ) :=
  match iters with
  | [] => none
  | (_, first) :: _ =>
    some (leBytes 8 first.length ++ leBytes 8 D ++ writeSnapshots D iters)

/-- Read one row of D little-endian 32-bit patterns. -/
def readF32Row : ℕ → List ℕ → List ℕ
  | 0, _ => []
  | k + 1, bs => fromLEBytes (bs.take 4) :: readF32Row k (bs.drop 4)

/-- Reinterpret a position block as n rows of D patterns
(`Vec::from_raw_parts(iteration.as_ptr() as *mut DVec<D>, n, n)`). -/
def readRows : ℕ → ℕ → List ℕ → List (List ℕ)
  | 0, _, _ => []
  | n + 1, D, bs => readF32Row D bs :: readRows n D (bs.drop (4 * D))

/-- The snapshot loop of `parse_positions_file`: while bytes remain, read
the 8-byte iteration number (panic when fewer than 8 bytes remain),
assert at least `n·D·4` bytes of positions, slice them off and continue.
The fuel argument bounds the number of loop turns; the callers pass more
fuel than any input can consume. -/
def parseSnapshots (n D : ℕ) : ℕ → List ℕ → Option (List (ℕ × List (List ℕ)))
  | _, [] => some []
  | 0, _ :: _ => none
  | fuel + 1, b :: bs =>
    let bytes := b :: bs
    if bytes.length < 8 then none
    else
      let num := fromLEBytes (bytes.take 8)
      let rest := bytes.drop 8
      if rest.length < n * D * 4 then none
      else
        match parseSnapshots n D fuel (rest.drop (n * D * 4)) with
        | none => none
        | some tail => some ((num, readRows n D (rest.take (n * D * 4))) :: tail)

/-- `parse_positions_file` (src/parsing.rs lines 17-58): read the header
(node count, then dimension, panicking when the dimension differs from
the compile-time D), then the snapshots until end of file. -/
def parsePositionsFile (Dc : ℕ) (bytes : List ℕ) : Option (List (ℕ × List (List ℕ))) :=
  if bytes.length < 8 then none
  else
    let r1 := bytes.drop 8
    if r1.length < 8 then none
    else
      let dim := fromLEBytes (r1.take 8)
      if dim ≠ Dc then none
      else parseSnapshots (fromLEBytes (bytes.take 8)) Dc (bytes.length + 1) (r1.drop 8)

theorem rowBytes_eq_flatMap : ∀ (p : List ℕ), rowBytes p.length p = p.flatMap (leBytes 4)
  | [] => rfl
  | a :: t => by
    show rowBytes (t.length + 1) (a :: t) = _
    unfold rowBytes
    rw [List.range_succ_eq_map, List.flatMap_cons, List.flatMap_map]
    rw [List.getD_cons_zero]
    have : (fun i => leBytes 4 ((a :: t).getD (Nat.succ i) 0)) =
        (fun i => leBytes 4 (t.getD i 0)) := by
      funext i
      rw [List.getD_cons_succ]
    rw [this]
    have ht := rowBytes_eq_flatMap t
    unfold rowBytes at ht
    rw [ht, List.flatMap_cons]

theorem flatMap_leBytes_length (p : List ℕ) :
    (p.flatMap (leBytes 4)).length = 4 * p.length := by
  induction p with
  | nil => rfl
  | cons a t ih =>
    rw [List.flatMap_cons, List.length_append, leBytes_length, ih]
    simp
    ring

theorem readF32Row_round : ∀ (p : List ℕ) (rest : List ℕ),
    (∀ b ∈ p, b < 2 ^ 32) →
    readF32Row p.length (p.flatMap (leBytes 4) ++ rest) = p
  | [], rest, _ => rfl
  | a :: t, rest, hb => by
    show readF32Row (t.length + 1) _ = _
    rw [List.flatMap_cons, List.append_assoc]
    unfold readF32Row
    rw [List.take_left' (leBytes_length 4 a), List.drop_left' (leBytes_length 4 a)]
    rw [fromLEBytes_leBytes 4 a (by
      have := hb a (by simp)
      norm_num at this ⊢
      exact this)]
    rw [readF32Row_round t rest (fun b hbm => hb b (by simp [hbm]))]

theorem readRows_round : ∀ (rows : List (List ℕ)) (D : ℕ) (rest : List ℕ),
    (∀ p ∈ rows, p.length = D) →
    (∀ p ∈ rows, ∀ b ∈ p, b < 2 ^ 32) →
    readRows rows.length D (snapBodyBytes D rows ++ rest) = rows ∧
    (snapBodyBytes D rows ++ rest).drop (rows.length * D * 4) = rest
  | [], D, rest, _, _ => by
    constructor
    · rfl
    · simp [snapBodyBytes]
  | r :: rs, D, rest, hlen, hb => by
    have hrD : r.length = D := hlen r (by simp)
    have hrow : rowBytes D r = r.flatMap (leBytes 4) := by
      rw [← hrD]
      exact rowBytes_eq_flatMap r
    have hrowlen : (rowBytes D r).length = 4 * D := by
      rw [hrow, flatMap_leBytes_length, hrD]
    have hbody : snapBodyBytes D (r :: rs) = rowBytes D r ++ snapBodyBytes D rs := by
      unfold snapBodyBytes
      rw [List.flatMap_cons]
    obtain ⟨ih1, ih2⟩ := readRows_round rs D rest
      (fun p hp => hlen p (by simp [hp]))
      (fun p hp => hb p (by simp [hp]))
    constructor
    · show readRows (rs.length + 1) D _ = _
      unfold readRows
      rw [hbody, List.append_assoc]
      have hhead : readF32Row D (rowBytes D r ++ (snapBodyBytes D rs ++ rest)) = r := by
        rw [hrow, ← hrD]
        exact readF32Row_round r _ (hb r (by simp))
      rw [hhead]
      rw [List.drop_left' hrowlen]
      rw [ih1]
    · rw [hbody, List.append_assoc]
      have harith : (r :: rs).length * D * 4 = 4 * D + rs.length * D * 4 := by
        simp [List.length_cons]
        ring
      rw [harith, ← List.drop_drop]
      rw [List.drop_left' hrowlen]
      exact ih2

theorem snapBodyBytes_length (D : ℕ) (rows : List (List ℕ))
    (hlen : ∀ p ∈ rows, p.length = D) :
    (snapBodyBytes D rows).length = rows.length * D * 4 := by
  induction rows with
  | nil => simp [snapBodyBytes]
  | cons r rs ih =>
    have hrD : r.length = D := hlen r (by simp)
    have hrow : rowBytes D r = r.flatMap (leBytes 4) := by
      rw [← hrD]
      exact rowBytes_eq_flatMap r
    unfold snapBodyBytes
    rw [List.flatMap_cons, List.length_append, hrow, flatMap_leBytes_length, hrD]
    have ihx := ih (fun p hp => hlen p (by simp [hp]))
    unfold snapBodyBytes at ihx
    rw [ihx]
    simp [List.length_cons]
    ring

theorem writeSnapshots_ge_length (D : ℕ) :
    ∀ (iters : List (ℕ × List (List ℕ))),
      iters.length ≤ (writeSnapshots D iters).length
  | [] => le_rfl
  | it :: rest => by
    unfold writeSnapshots
    rw [List.flatMap_cons, List.length_append, List.length_append, leBytes_length]
    have := writeSnapshots_ge_length D rest
    unfold writeSnapshots at this
    simp only [List.length_cons]
    omega

theorem parseSnapshots_round (N D : ℕ) :
    ∀ (iters : List (ℕ × List (List ℕ))) (fuel : ℕ),
    iters.length ≤ fuel →
    (∀ it ∈ iters, it.2.length = N) →
    (∀ it ∈ iters, ∀ p ∈ it.2, p.length = D) →
    (∀ it ∈ iters, ∀ p ∈ it.2, ∀ b ∈ p, b < 2 ^ 32) →
    (∀ it ∈ iters, it.1 < 2 ^ 64) →
    parseSnapshots N D fuel (writeSnapshots D iters) = some iters
  | [], fuel, _, _, _, _, _ => by
    cases fuel <;> rfl
  | it :: rest, fuel, hfuel, hrows, hdim, hf32, hnum => by
    obtain ⟨f, rfl⟩ : ∃ f, fuel = f + 1 := by
      cases fuel
      · simp at hfuel
      · exact ⟨_, rfl⟩
    have hrN : it.2.length = N := hrows it (by simp)
    have hbytes : writeSnapshots D (it :: rest) =
        leBytes 8 it.1 ++ (snapBodyBytes D it.2 ++ writeSnapshots D rest) := by
      unfold writeSnapshots
      rw [List.flatMap_cons, List.append_assoc]
    have hlen8 : (leBytes 8 it.1).length = 8 := leBytes_length 8 it.1
    have hbodylen : (snapBodyBytes D it.2).length = N * D * 4 := by
      rw [snapBodyBytes_length D it.2 (fun p hp => hdim it (by simp) p hp), hrN]
    -- the byte stream is nonempty, so the loop takes a turn
    obtain ⟨b, bs, hcons⟩ : ∃ b bs, writeSnapshots D (it :: rest) = b :: bs := by
      rw [hbytes]
      cases h8 : leBytes 8 it.1 with
      | nil =>
        exfalso
        have := leBytes_length 8 it.1
        rw [h8] at this
        simp at this
      | cons x xs => exact ⟨x, xs ++ (snapBodyBytes D it.2 ++ writeSnapshots D rest), by simp⟩
    rw [hcons]
    unfold parseSnapshots
    have hlentot : (b :: bs).length = 8 + (snapBodyBytes D it.2).length +
        (writeSnapshots D rest).length := by
      rw [← hcons, hbytes]
      simp [hlen8]
      omega
    rw [if_neg (by omega)]
    have htake8 : (b :: bs).take 8 = leBytes 8 it.1 := by
      rw [← hcons, hbytes]
      exact List.take_left' hlen8
    have hdrop8 : (b :: bs).drop 8 = snapBodyBytes D it.2 ++ writeSnapshots D rest := by
      rw [← hcons, hbytes]
      exact List.drop_left' hlen8
    rw [htake8, hdrop8]
    rw [fromLEBytes_leBytes 8 it.1 (by
      have := hnum it (by simp)
      norm_num at this ⊢
      exact this)]
    rw [if_neg (by
      rw [List.length_append, hbodylen]
      omega)]
    have htakebody : (snapBodyBytes D it.2 ++ writeSnapshots D rest).take (N * D * 4) =
        snapBodyBytes D it.2 := List.take_left' hbodylen
    have hdropbody : (snapBodyBytes D it.2 ++ writeSnapshots D rest).drop (N * D * 4) =
        writeSnapshots D rest := List.drop_left' hbodylen
    rw [htakebody, hdropbody]
    rw [parseSnapshots_round N D rest f (by
        simp only [List.length_cons] at hfuel
        omega)
      (fun x hx => hrows x (by simp [hx]))
      (fun x hx => hdim x (by simp [hx]))
      (fun x hx => hf32 x (by simp [hx]))
      (fun x hx => hnum x (by simp [hx]))]
    have hsliced := (readRows_round it.2 D []
        (fun p hp => hdim it (by simp) p hp)
        (fun p hp => hf32 it (by simp) p hp)).1
    rw [hrN, List.append_nil] at hsliced
    rw [hsliced]

/-- C9: for every nonempty snapshot list over N ≥ 1 nodes (uniform row
count N, row dimension D, 32-bit patterns, 64-bit iteration numbers),
writing with `write_test_file` and parsing the bytes back with
`parse_positions_file` at the same D returns exactly the same snapshots:
same count, identical iteration numbers, bit-identical positions. -/
theorem positions_file_round_trip (D N : ℕ) (iters : List (ℕ × List (List ℕ)))
    (hne : iters ≠ []) (hN : 1 ≤ N) (hN64 : N < 2 ^ 64) (hD64 : D < 2 ^ 64)
    (hrows : ∀ it ∈ iters, it.2.length = N)
    (hdim : ∀ it ∈ iters, ∀ p ∈ it.2, p.length = D)
    (hf32 : ∀ it ∈ iters, ∀ p ∈ it.2, ∀ b ∈ p, b < 2 ^ 32)
    (hnum : ∀ it ∈ iters, it.1 < 2 ^ 64) :
    ∃ bs, writeTestFile D iters = some bs ∧ parsePositionsFile D bs = some iters := by
  obtain ⟨num0, rows0, rest, rfl⟩ : ∃ num0 rows0 rest,
      iters = (num0, rows0) :: rest := by
    cases iters with
    | nil => simp at hne
    | cons it rest => exact ⟨it.1, it.2, rest, by simp⟩
  have h0N : rows0.length = N := hrows (num0, rows0) (by simp)
  refine ⟨leBytes 8 rows0.length ++ leBytes 8 D ++
    writeSnapshots D ((num0, rows0) :: rest), rfl, ?_⟩
  have hassoc : leBytes 8 rows0.length ++ leBytes 8 D ++
      writeSnapshots D ((num0, rows0) :: rest) =
      leBytes 8 rows0.length ++ (leBytes 8 D ++
        writeSnapshots D ((num0, rows0) :: rest)) := by
    rw [List.append_assoc]
  have hlen1 : (leBytes 8 rows0.length).length = 8 := leBytes_length _ _
  have hlen2 : (leBytes 8 D).length = 8 := leBytes_length _ _
  simp only [parsePositionsFile]
  rw [if_neg (by
    rw [hassoc, List.length_append, hlen1]
    omega)]
  rw [hassoc, List.drop_left' hlen1, List.take_left' hlen1]
  rw [List.take_left' hlen2, List.drop_left' hlen2]
  rw [fromLEBytes_leBytes 8 D hD64]
  rw [if_neg (by
    rw [List.length_append, hlen2]
    omega)]
  rw [if_neg (by simp)]
  rw [fromLEBytes_leBytes 8 rows0.length (h0N ▸ hN64)]
  rw [h0N]
  apply parseSnapshots_round N D ((num0, rows0) :: rest) _ _ hrows hdim hf32 hnum
  have hge := writeSnapshots_ge_length D ((num0, rows0) :: rest)
  rw [List.length_append, List.length_append]
  omega

/-- Witness for C9: one snapshot of one node in dimension 2 with the
float patterns 0x3f800000 (1.0f32) and 0x00000000. -/
theorem positions_file_round_trip_witness :
    ([((5 : ℕ), [[1065353216, 0]])] ≠ ([] : List (ℕ × List (List ℕ)))) ∧
    (1 : ℕ) ≤ 1 ∧ (1 : ℕ) < 2 ^ 64 ∧ (2 : ℕ) < 2 ^ 64 ∧
    ∃ bs, writeTestFile 2 [(5, [[1065353216, 0]])] = some bs ∧
      parsePositionsFile 2 bs = some [(5, [[1065353216, 0]])] :=
  ⟨by decide, by decide, by norm_num, by norm_num,
    positions_file_round_trip 2 1 [(5, [[1065353216, 0]])] (by decide)
      (by decide) (by norm_num) (by norm_num)
      (by decide)
      (by decide)
      (by intro it hit p hp b hb
          fin_cases hit
          fin_cases hp
          fin_cases hb <;> norm_num)
      (by intro it hit
          fin_cases hit
          norm_num)⟩

/-! ## Dynamic-query wrapper (src/dynamic_queries.rs)

The wrapper is generic over its inner index; the model takes the inner
state type and the inner operations as parameters.  The per-node mutex
only sequences access and carries no other behaviour, so the cache is a
plain list of lists. -/

/-- The scalar state of `DynamicQuery`. -/
structure DynQ (D : ℕ) where
  cache : List (List ℕ)
  positions : List (DVec D)
  queryBuffer : ℚ
  overQueryRadius : ℚ
  overquery : Bool
  cacheEmpty : Bool

/-- `DynamicQuery::update_positions` (src/dynamic_queries.rs lines
62-123): on empty input return; copy the positions; when
`1 + max_deviation < over_query_radius` mark overquery and clear the
cache-empty flag, else clear overquery (the forwarding in this branch is
commented out in the source); then if `query_buffer - max_deviation < 1`
forward the update to the inner index, clear every cache slot, mark the
cache empty and reset the buffer, else only shrink the buffer. -/
def dynUpdatePositions {D : ℕ} {σ : Type}
    (innerUpdate : σ → List (DVec D) → Option ℚ → σ)
    (s : DynQ D) (inner : σ) (P : List (DVec D)) (lastDelta : Option ℚ) :
    DynQ D × σ :=
  if P = [] then (s, inner)
  else
    let maxDev := lastDelta.getD 10
    let s1 := { s with positions := P }
    let s2 := if 1 + maxDev < s1.overQueryRadius
      then { s1 with overquery := true, cacheEmpty := false }
      else { s1 with overquery := false }
    if s2.queryBuffer - maxDev < 1 then
      ({ s2 with
          cacheEmpty := true
          cache := s2.cache.map (fun _ => [])
          queryBuffer := s2.overQueryRadius },
        innerUpdate inner P lastDelta)
    else
      ({ s2 with queryBuffer := s2.queryBuffer - maxDev }, inner)

/-- `DynamicQuery::nearest_neighbors` (src/dynamic_queries.rs lines
126-167): outside overquery mode pass through to the inner index; in
overquery mode assert the radius fits the buffer, then either retain the
cached entries still inside the buffer radius and emit those inside the
given radius, or (cache empty) query the inner index at the over-query
radius, keep the non-adjacent tie-broken entries inside the buffer and
emit those inside the given radius.  Returns the updated wrapper state
and the result list; none models a failed assert. -/
def dynNearestNeighbors {D : ℕ} {σ : Type}
    (innerNN : σ → ℕ → ℚ → List ℕ → List ℕ)
    (isConn : ℕ → ℕ → Bool) (W : ℕ → ℚ)
    (s : DynQ D) (inner : σ) (v : ℕ) (radius : ℚ) (out : List ℕ) :
    Option (DynQ D × List ℕ) :=
  if s.overquery = false then some (s, innerNN inner v radius out)
  else if ¬ (radius ≤ s.queryBuffer) then none
  else
    let pos := posAt s.positions v
    let wv := W v
    let rr := s.queryBuffer
    let filt : ℕ → Bool := fun id =>
      !(isConn v id) &&
      decide (W id < wv ∨ (wv = W id ∧ id < v)) &&
      decide (distSq (posAt s.positions id) pos < (wv * W id) ^ 2 * rr)
    let radiusOne : ℕ → Bool := fun id =>
      decide (distSq (posAt s.positions id) pos < (wv * W id) ^ 2)
    let posP : ℕ → Bool := fun id =>
      decide (distSq (posAt s.positions id) pos < (wv * W id) ^ 2 * rr)
    if s.cacheEmpty = false then
      let kept := (s.cache.getD v []).filter posP
      some ({ s with cache := s.cache.set v kept }, out ++ kept.filter radiusOne)
    else
      if s.cache.getD v [] ≠ [] then none
      else
        let kept := (innerNN inner v s.overQueryRadius []).filter filt
        some ({ s with cache := s.cache.set v kept }, out ++ kept.filter radiusOne)

/-- C5 amended: when `update_positions(P, Δ)` is called with
`1 + Δ ≥ over_query_radius` and additionally `query_buffer - Δ < 1`, the
wrapper clears overquery and forwards the update to the inner index; the
extra condition is forced, since in the boundary case
`query_buffer - Δ ≥ 1` (reachable only with
`query_buffer = over_query_radius = 1 + Δ`) the code forwards nothing. -/
theorem dyn_update_clears_overquery_and_forwards {D : ℕ} {σ : Type}
    (innerUpdate : σ → List (DVec D) → Option ℚ → σ)
    (s : DynQ D) (inner : σ) (P : List (DVec D)) (Δ : ℚ)
    (hP : P ≠ []) (hge : s.overQueryRadius ≤ 1 + Δ)
    (hlt : s.queryBuffer - Δ < 1) :
    (dynUpdatePositions innerUpdate s inner P (some Δ)).1.overquery = false ∧
    (dynUpdatePositions innerUpdate s inner P (some Δ)).2 =
      innerUpdate inner P (some Δ) ∧
    (dynUpdatePositions innerUpdate s inner P (some Δ)).1.positions = P := by
  simp only [dynUpdatePositions]
  rw [if_neg hP]
  simp only [Option.getD_some]
  rw [if_neg (not_lt.mpr hge)]
  rw [if_pos (by simpa using hlt)]
  exact ⟨rfl, rfl, rfl⟩

/-- A wrapper state with buffer 1 and over-query radius 11/10. -/
def dynBufState : DynQ 2 := ⟨[[]], [], 1, 11/10, true, false⟩

/-- A one-node position list. -/
def oneNodePos : List (DVec 2) := [(fun _ => 0)]

/-- Witness for the amended C5: a wrapper with buffer 1 and over-query
radius 11/10 updated with displacement bound 1/2. -/
theorem dyn_update_clears_overquery_and_forwards_witness :
    (oneNodePos ≠ []) ∧
    (dynBufState.overQueryRadius ≤ (1 : ℚ) + 1/2) ∧
    (dynBufState.queryBuffer - 1/2 < 1) ∧
    ((dynUpdatePositions (fun (_ : List (DVec 2)) P _ => P)
        dynBufState oneNodePos oneNodePos (some (1/2))).1.overquery = false ∧
      (dynUpdatePositions (fun (_ : List (DVec 2)) P _ => P)
        dynBufState oneNodePos oneNodePos (some (1/2))).2 = oneNodePos ∧
      (dynUpdatePositions (fun (_ : List (DVec 2)) P _ => P)
        dynBufState oneNodePos oneNodePos (some (1/2))).1.positions = oneNodePos) :=
  ⟨by simp [oneNodePos], by norm_num [dynBufState], by norm_num [dynBufState],
    dyn_update_clears_overquery_and_forwards (fun _ P _ => P)
      dynBufState oneNodePos oneNodePos (1/2)
      (by simp [oneNodePos]) (by norm_num [dynBufState]) (by norm_num [dynBufState])⟩

/-- A wrapper state at the exact boundary: buffer and over-query radius
both 11/10. -/
def dynBoundaryState : DynQ 2 := ⟨[[]], oneNodePos, 11/10, 11/10, false, false⟩

/-- A one-node position list distinct from `oneNodePos`. -/
def oneNodePosOne : List (DVec 2) := [(fun _ => 1)]

/-- C5 counterexample: update with `Δ = 1/10` against over-query radius
11/10 satisfies `1 + Δ ≥ over_query_radius`, and the wrapper does set
`overquery = false`, but it does not forward the update: since
`query_buffer - Δ = 1` is not < 1 the inner index keeps its stale
positions (the unconditional forwarding of the spec is commented out in
the source). -/
theorem dyn_update_boundary_does_not_forward :
    dynBoundaryState.overQueryRadius ≤ (1 : ℚ) + 1/10 ∧
    (dynUpdatePositions (fun (_ : List (DVec 2)) P _ => P)
      dynBoundaryState oneNodePos oneNodePosOne (some (1/10))).1.overquery = false ∧
    (dynUpdatePositions (fun (_ : List (DVec 2)) P _ => P)
      dynBoundaryState oneNodePos oneNodePosOne (some (1/10))).2 ≠ oneNodePosOne := by
  refine ⟨by norm_num [dynBoundaryState], ?_, ?_⟩
  · simp only [dynUpdatePositions]
    rw [if_neg (show ¬(oneNodePosOne = []) by simp [oneNodePosOne])]
    simp only [Option.getD_some]
    rw [if_neg (by norm_num [dynBoundaryState])]
    rw [if_neg (by norm_num [dynBoundaryState])]
  · simp only [dynUpdatePositions]
    rw [if_neg (show ¬(oneNodePosOne = []) by simp [oneNodePosOne])]
    simp only [Option.getD_some]
    rw [if_neg (by norm_num [dynBoundaryState])]
    rw [if_neg (by norm_num [dynBoundaryState])]
    show oneNodePos ≠ oneNodePosOne
    intro h
    have hhead : ((fun _ => 0) : DVec 2) = ((fun _ => 1) : DVec 2) := by
      simpa [oneNodePos, oneNodePosOne] using h
    have := congrFun hhead ⟨0, by norm_num⟩
    norm_num at this

/-- C3 amended (subset direction): in over-query mode every node emitted
by a radius-1 query, beyond the previous contents of the output buffer,
satisfies the radius-1 weighted distance predicate at the current
positions, i.e. the emitted set is a subset of the true radius-1
neighbor set.  The containment direction of the claim is refuted
separately. -/
theorem dyn_nn_emitted_within_radius_one {D : ℕ} {σ : Type}
    (innerNN : σ → ℕ → ℚ → List ℕ → List ℕ) (isConn : ℕ → ℕ → Bool)
    (W : ℕ → ℚ) (s : DynQ D) (inner : σ) (v : ℕ) (out : List ℕ)
    (s2 : DynQ D) (res : List ℕ)
    (hover : s.overquery = true)
    (h : dynNearestNeighbors innerNN isConn W s inner v 1 out = some (s2, res)) :
    ∀ u ∈ res, u ∈ out ∨
      distSq (posAt s.positions u) (posAt s.positions v) < (W v * W u) ^ 2 := by
  intro u hu
  simp only [dynNearestNeighbors] at h
  rw [if_neg (by simp [hover])] at h
  by_cases hrq : (1 : ℚ) ≤ s.queryBuffer
  · rw [if_neg (not_not_intro hrq)] at h
    by_cases hce : s.cacheEmpty = false
    · rw [if_pos hce] at h
      have hres : res = out ++ ((s.cache.getD v []).filter
          (fun id => decide (distSq (posAt s.positions id) (posAt s.positions v) <
            (W v * W id) ^ 2 * s.queryBuffer))).filter
          (fun id => decide (distSq (posAt s.positions id) (posAt s.positions v) <
            (W v * W id) ^ 2)) := by
        have := (Option.some.injEq _ _).mp h
        exact (Prod.mk.injEq _ _ _ _).mp this |>.2.symm
      rw [hres] at hu
      rcases List.mem_append.mp hu with h1 | h2
      · exact Or.inl h1
      · right
        have := List.of_mem_filter h2
        simpa using this
    · rw [if_neg hce] at h
      by_cases hcv : s.cache.getD v [] ≠ []
      · rw [if_pos hcv] at h
        simp at h
      · rw [if_neg hcv] at h
        have hres : res = out ++ ((innerNN inner v s.overQueryRadius []).filter
            (fun id => !(isConn v id) &&
              decide (W id < W v ∨ (W v = W id ∧ id < v)) &&
              decide (distSq (posAt s.positions id) (posAt s.positions v) <
                (W v * W id) ^ 2 * s.queryBuffer))).filter
            (fun id => decide (distSq (posAt s.positions id) (posAt s.positions v) <
              (W v * W id) ^ 2)) := by
          have := (Option.some.injEq _ _).mp h
          exact (Prod.mk.injEq _ _ _ _).mp this |>.2.symm
        rw [hres] at hu
        rcases List.mem_append.mp hu with h1 | h2
        · exact Or.inl h1
        · right
          have := List.of_mem_filter h2
          simpa using this
  · rw [if_pos (by simpa using hrq)] at h
    simp at h

/-- Two nodes at positions (0,0) and (1/4,0). -/
def dynExP : List (DVec 2) :=
  [(fun _ => 0), (fun i => if i.1 = 0 then 1/4 else 0)]

/-- The wrapper state produced by `DynamicQuery::new` before its first
position update: empty caches, over-query radius 11/10, zero buffer. -/
def dynInitState : DynQ 2 := ⟨[[], []], [], 0, 11/10, false, true⟩

/-- The construction-time update `update_positions(P, None)` with the
brute-force inner index (which stores P verbatim). -/
def dynStep1 : DynQ 2 × List (DVec 2) :=
  dynUpdatePositions (fun _ P _ => P) dynInitState dynExP dynExP none

/-- A following iteration update `update_positions(P, Some(0))` with
unchanged positions: true per-node displacement 0. -/
def dynStep2 : DynQ 2 × List (DVec 2) :=
  dynUpdatePositions (fun _ P _ => P) dynStep1.1 dynStep1.2 dynExP (some 0)

theorem dynStep1_eval :
    dynStep1 = (⟨[[], []], dynExP, 11/10, 11/10, false, true⟩, dynExP) := by
  simp only [dynStep1, dynUpdatePositions, dynInitState]
  rw [if_neg (show ¬(dynExP = []) from List.cons_ne_nil _ _)]
  norm_num

theorem dynStep2_eval :
    dynStep2 = (⟨[[], []], dynExP, 11/10, 11/10, true, false⟩, dynExP) := by
  simp only [dynStep2, dynStep1_eval, dynUpdatePositions]
  rw [if_neg (show ¬(dynExP = []) from List.cons_ne_nil _ _)]
  norm_num

/-- C3 counterexample: after a cache refresh (construction update) and a
further update with true displacement Δ = 0, the wrapper is in over-query
mode with `cache_empty = false` although every cache slot is empty (the
flag is set before the refresh test and nothing repopulates the cache),
so the radius-1 query for node 1 emits nothing, missing the true
radius-1 neighbor 0 whose weighted distance 1/4 is at most
`q - Δ = 11/10`. -/
theorem dyn_nn_misses_true_neighbor :
    dynNearestNeighbors
      (fun st v r out => bruteNearestNeighbors [1, 1] st v r out)
      (fun _ _ => false) (fun _ => 1) dynStep2.1 dynStep2.2 1 1 [] =
      some (dynStep2.1, []) ∧
    distSq (posAt dynExP 1) (posAt dynExP 0) < ((1 : ℚ) * 1) ^ 2 ∧
    magnitude (posAt dynExP 1 - posAt dynExP 0) / ((1 : ℚ) * 1) ≤ 11/10 - 0 := by
  have hd : distSq (posAt dynExP 1) (posAt dynExP 0) = 1/16 := by
    unfold distSq
    rw [Fin.sum_univ_two]
    norm_num [posAt, dynExP]
  refine ⟨?_, ?_, ?_⟩
  · rw [dynStep2_eval]
    norm_num [dynNearestNeighbors]
  · rw [hd]
    norm_num
  · have hms : magSq (posAt dynExP 1 - posAt dynExP 0) = 1/16 := by
      rw [magSq_sub_eq_distSq, hd]
    unfold magnitude
    rw [hms, show (1/16 : ℚ) = (1/4) ^ 2 by norm_num,
      ratSqrt_of_sq (1/4) (by norm_num)]
    norm_num

/-- A wrapper state in over-query mode with empty cache slots. -/
def dynOverState : DynQ 2 := ⟨[[], []], dynExP, 11/10, 11/10, true, false⟩

/-- Witness for the amended C3 at the concrete over-query state. -/
theorem dyn_nn_emitted_within_radius_one_witness :
    dynOverState.overquery = true ∧
    dynNearestNeighbors
      (fun (st : List (DVec 2)) v r out => bruteNearestNeighbors [1, 1] st v r out)
      (fun _ _ => false) (fun _ => (1 : ℚ)) dynOverState dynExP 1 1 [] =
      some (dynOverState, []) ∧
    (∀ u ∈ ([] : List ℕ), u ∈ ([] : List ℕ) ∨
      distSq (posAt dynOverState.positions u) (posAt dynOverState.positions 1) <
        ((1 : ℚ) * 1) ^ 2) :=
  ⟨rfl, by norm_num [dynNearestNeighbors, dynOverState],
    dyn_nn_emitted_within_radius_one
      (fun (st : List (DVec 2)) v r out => bruteNearestNeighbors [1, 1] st v r out)
      (fun _ _ => false) (fun _ => (1 : ℚ)) dynOverState dynExP 1 [] dynOverState []
      rfl (by norm_num [dynNearestNeighbors, dynOverState])⟩

/-! ## Repulsion pass of the embedder (src/embedder.rs lines 310-376) -/

/-- The default `Embedder::repelling_nodes` (src/query.rs lines 96-107):
query at radius 1, then retain non-self, non-adjacent nodes within
weighted distance 1. -/
def defaultRepellingNodes {D : ℕ} (nn : ℕ → ℚ → List ℕ) (isConn : ℕ → ℕ → Bool)
    (W : ℕ → ℚ) (P : List (DVec D)) (v : ℕ) : List ℕ :=
  (nn v 1).filter (fun x => decide (v ≠ x) && !(isConn v x) &&
    decide (distSq (posAt P x) (posAt P v) < (W v * W x) ^ 2))

/-- Stage 1 of `calculate_repulsion_forces`: the per-node query caches. -/
def repulsionCaches (N : ℕ) (repelling : ℕ → List ℕ) : List (List ℕ) :=
  (List.range N).map repelling

/-- The mirror pushes: for every node a (in order) and every occurrence
of u in the cache of a, one push of a into the slot of u. -/
def mirrorPushes (caches : List (List ℕ)) (u : ℕ) : List ℕ :=
  caches.enum.flatMap
    (fun vc => (vc.2.filter (fun c => c = u)).map (fun _ => vc.1))

/-- The merged candidate list of node v before the force sum: its own
cache extended with the drained mirror slot (no sort, no dedup; those
calls are commented out in the source). -/
def mergedCandidates (N : ℕ) (repelling : ℕ → List ℕ) (v : ℕ) : List ℕ :=
  (repulsionCaches N repelling).getD v [] ++
    mirrorPushes (repulsionCaches N repelling) v

/-- Stage 2 of `calculate_repulsion_forces`: each node adds to its
existing (attraction) force the repulsion force of every entry of its
merged candidate list. -/
def calcRepulsionForces {D : ℕ} (scale : ℚ) (W : List ℚ) (P : List (DVec D))
    (jitter : DVec D) (repelling : ℕ → List ℕ) (forces : List (DVec D)) :
    List (DVec D) :=
  (List.range P.length).map (fun v => forces.getD v (fun _ => 0) +
    ((mergedCandidates P.length repelling v).map
      (repulsionForce scale W P jitter v)).sum)

theorem mem_mirrorPushes (caches : List (List ℕ)) (u w : ℕ) :
    w ∈ mirrorPushes caches u ↔ ∃ c, caches.get? w = some c ∧ u ∈ c := by
  unfold mirrorPushes
  rw [List.mem_flatMap]
  constructor
  · rintro ⟨vc, hvc, hw⟩
    rw [List.mem_map] at hw
    obtain ⟨x, hx, rfl⟩ := hw
    have hux : x = u := by simpa using List.of_mem_filter hx
    refine ⟨vc.2, List.mem_enum_iff_get?.mp hvc, ?_⟩
    rw [← hux]
    exact List.mem_of_mem_filter hx
  · rintro ⟨c, hc, hu⟩
    refine ⟨(w, c), List.mem_enum_iff_get?.mpr hc, ?_⟩
    rw [List.mem_map]
    refine ⟨u, ?_, rfl⟩
    rw [List.mem_filter]
    exact ⟨hu, by simp⟩

theorem length_le_one_of_nodup_const (l : List ℕ) (u : ℕ) (hnd : l.Nodup)
    (hall : ∀ x ∈ l, x = u) : l.length ≤ 1 := by
  match l with
  | [] => simp
  | [a] => simp
  | a :: b :: t =>
    exfalso
    have ha : a = u := hall a (by simp)
    have hb : b = u := hall b (by simp)
    rw [List.nodup_cons] at hnd
    exact hnd.1 (by simp [ha, hb])

theorem mirrorPushes_sublist :
    ∀ (l : List (ℕ × List ℕ)) (u : ℕ), (∀ p ∈ l, p.2.Nodup) →
      (l.flatMap (fun vc => (vc.2.filter (fun c => c = u)).map (fun _ => vc.1))).Sublist
        (l.map Prod.fst)
  | [], _, _ => by simp
  | p :: t, u, h => by
    rw [List.flatMap_cons, List.map_cons]
    have htail := mirrorPushes_sublist t u (fun q hq => h q (by simp [hq]))
    have hnd : (p.2.filter (fun c => c = u)).Nodup := (h p (by simp)).filter _
    have hall : ∀ x ∈ p.2.filter (fun c => c = u), x = u := by
      intro x hx
      simpa using List.of_mem_filter hx
    have hlen := length_le_one_of_nodup_const _ u hnd hall
    match hfl : p.2.filter (fun c => c = u) with
    | [] =>
      simp only [List.map_nil, List.nil_append]
      exact htail.cons p.1
    | [x] =>
      simp only [List.map_cons, List.map_nil, List.singleton_append]
      exact htail.cons₂ p.1
    | x :: y :: rest =>
      rw [hfl] at hlen
      simp at hlen

theorem mirrorPushes_pairwise_lt (caches : List (List ℕ)) (u : ℕ)
    (h : ∀ c ∈ caches, c.Nodup) :
    (mirrorPushes caches u).Pairwise (· < ·) := by
  have hsub : (mirrorPushes caches u).Sublist (caches.enum.map Prod.fst) := by
    apply mirrorPushes_sublist
    intro p hp
    exact h p.2 (List.mem_enum_iff_get?.mp hp |> fun hg => by
      rw [List.get?_eq_getElem?] at hg
      obtain ⟨hlt, heq⟩ := List.getElem?_eq_some.mp hg
      rw [← heq]
      exact List.getElem_mem _)
  apply List.Pairwise.sublist hsub
  rw [List.enum_map_fst]
  exact List.pairwise_lt_range _

/-- `repelling_nodes` as the embedder sees it when the index is the
brute-force `Embedding` (which inherits the default trait method over
its asymmetric u < v query). -/
def bruteRepelling {D : ℕ} (W : List ℚ) (isConn : ℕ → ℕ → Bool)
    (P : List (DVec D)) (v : ℕ) : List ℕ :=
  defaultRepellingNodes (fun u r => bruteNearestNeighbors W P u r [])
    isConn (wAt W) P v

theorem bruteRepelling_mem {D : ℕ} (W : List ℚ) (P : List (DVec D))
    (isConn : ℕ → ℕ → Bool) (a u : ℕ) (ha : a ≤ P.length)
    (haw : a ≤ W.length) :
    u ∈ bruteRepelling W isConn P a ↔
      u < a ∧ isConn a u = false ∧
      distSq (posAt P a) (posAt P u) < (wAt W a * wAt W u) ^ 2 := by
  obtain ⟨L, hL, _, hmem⟩ := brute_nn_appends_exactly W P a 1 [] ha haw
  rw [List.nil_append] at hL
  unfold bruteRepelling defaultRepellingNodes
  show u ∈ List.filter _ (bruteNearestNeighbors W P a 1 []) ↔ _
  rw [hL, List.mem_filter]
  simp only [Bool.and_eq_true, decide_eq_true_eq, Bool.not_eq_true']
  rw [hmem u]
  constructor
  · rintro ⟨⟨hua, hd⟩, ⟨hne, hconn⟩, hd2⟩
    refine ⟨hua, hconn, ?_⟩
    rw [distSq_comm] at hd2
    exact hd2
  · rintro ⟨hua, hconn, hd⟩
    refine ⟨⟨hua, by rw [mul_one]; exact hd⟩, ⟨by omega, hconn⟩, ?_⟩
    rw [distSq_comm]
    exact hd

theorem bruteRepelling_nodup {D : ℕ} (W : List ℚ) (P : List (DVec D))
    (isConn : ℕ → ℕ → Bool) (a : ℕ) (ha : a ≤ P.length)
    (haw : a ≤ W.length) :
    (bruteRepelling W isConn P a).Nodup := by
  obtain ⟨L, hL, hPw, _⟩ := brute_nn_appends_exactly W P a 1 [] ha haw
  rw [List.nil_append] at hL
  unfold bruteRepelling defaultRepellingNodes
  show (List.filter _ (bruteNearestNeighbors W P a 1 [])).Nodup
  rw [hL]
  exact (hPw.imp fun h => ne_of_lt h).filter _

/-- C4 amended: the merged candidate list `buf_v ++ mirror[v]` is not
deduplicated (the sort and dedup calls are commented out in the source);
with the brute-force index driving the pass, whose query emits each
unordered pair in one direction only (u < v), the merged list is
nevertheless duplicate free and contains exactly the qualifying repulsion
partners, so the per-pair force is applied exactly once to each endpoint.
Index variants that emit both directions apply it twice, as the
counterexample shows. -/
theorem brute_pass_pair_exactly_once {D : ℕ} (W : List ℚ) (P : List (DVec D))
    (isConn : ℕ → ℕ → Bool) (v u : ℕ)
    (hsym : ∀ a b, isConn a b = isConn b a)
    (hv : v < P.length) (hlen : P.length ≤ W.length) :
    (mergedCandidates P.length (bruteRepelling W isConn P) v).Nodup ∧
    (u ∈ mergedCandidates P.length (bruteRepelling W isConn P) v ↔
      u < P.length ∧ u ≠ v ∧ isConn v u = false ∧
      distSq (posAt P v) (posAt P u) < (wAt W v * wAt W u) ^ 2) := by
  set N := P.length with hN
  have hget : ∀ w : ℕ, w < N →
      (repulsionCaches N (bruteRepelling W isConn P)).get? w =
        some (bruteRepelling W isConn P w) := by
    intro w hw
    unfold repulsionCaches
    rw [List.get?_eq_getElem?, List.getElem?_map, List.getElem?_range hw]
    rfl
  have hget_none : ∀ w : ℕ, ¬ (w < N) →
      (repulsionCaches N (bruteRepelling W isConn P)).get? w = none := by
    intro w hw
    unfold repulsionCaches
    rw [List.get?_eq_getElem?, List.getElem?_map]
    rw [List.getElem?_eq_none (by simpa using Nat.le_of_not_lt hw)]
    rfl
  have hcacheD : (repulsionCaches N (bruteRepelling W isConn P)).getD v [] =
      bruteRepelling W isConn P v := by
    rw [List.getD_eq_getElem?_getD, ← List.get?_eq_getElem?, hget v hv]
    rfl
  have hbufmem : ∀ x, x ∈ bruteRepelling W isConn P v ↔
      x < v ∧ isConn v x = false ∧
      distSq (posAt P v) (posAt P x) < (wAt W v * wAt W x) ^ 2 :=
    fun x => bruteRepelling_mem W P isConn v x hv.le (le_trans hv.le hlen)
  have hmirmem : ∀ x, x ∈ mirrorPushes (repulsionCaches N (bruteRepelling W isConn P)) v ↔
      x < N ∧ v < x ∧ isConn v x = false ∧
      distSq (posAt P v) (posAt P x) < (wAt W v * wAt W x) ^ 2 := by
    intro x
    rw [mem_mirrorPushes]
    constructor
    · rintro ⟨c, hc, hvc⟩
      have hxN : x < N := by
        by_contra hx
        rw [hget_none x hx] at hc
        simp at hc
      rw [hget x hxN] at hc
      have hcx : bruteRepelling W isConn P x = c := by simpa using hc
      rw [← hcx] at hvc
      rw [bruteRepelling_mem W P isConn x v (le_of_lt hxN)
        (le_trans (le_of_lt hxN) hlen)] at hvc
      obtain ⟨hvx, hconn, hd⟩ := hvc
      refine ⟨hxN, hvx, ?_, ?_⟩
      · rw [hsym v x]
        exact hconn
      · rw [distSq_comm, mul_comm]
        exact hd
    · rintro ⟨hxN, hvx, hconn, hd⟩
      refine ⟨bruteRepelling W isConn P x, hget x hxN, ?_⟩
      rw [bruteRepelling_mem W P isConn x v (le_of_lt hxN)
        (le_trans (le_of_lt hxN) hlen)]
      refine ⟨hvx, by rw [← hsym v x]; exact hconn, ?_⟩
      rw [distSq_comm, mul_comm]
      exact hd
  constructor
  · unfold mergedCandidates
    rw [hcacheD]
    apply List.Nodup.append
    · exact bruteRepelling_nodup W P isConn v hv.le (le_trans hv.le hlen)
    · apply List.Pairwise.imp (fun h => ne_of_lt h)
      apply mirrorPushes_pairwise_lt
      intro c hc
      unfold repulsionCaches at hc
      rw [List.mem_map] at hc
      obtain ⟨a, ha, rfl⟩ := hc
      rw [List.mem_range] at ha
      exact bruteRepelling_nodup W P isConn a ha.le (le_trans ha.le hlen)
    · intro x hx hx2
      rw [hbufmem x] at hx
      rw [hmirmem x] at hx2
      omega
  · unfold mergedCandidates
    rw [hcacheD, List.mem_append, hbufmem u, hmirmem u]
    constructor
    · rintro (⟨hua, hconn, hd⟩ | ⟨huN, hvu, hconn, hd⟩)
      · exact ⟨by omega, by omega, hconn, hd⟩
      · exact ⟨huN, by omega, hconn, hd⟩
    · rintro ⟨huN, hne, hconn, hd⟩
      rcases Nat.lt_or_ge u v with h | h
      · exact Or.inl ⟨h, hconn, hd⟩
      · exact Or.inr ⟨huN, by omega, hconn, hd⟩

/-- Witness for the amended C4: two unit-weight unconnected nodes at
distance 1/2 under the brute-force index; the merged list of node 1 is
duplicate free and contains exactly node 0. -/
theorem brute_pass_pair_exactly_once_witness :
    (∀ a b : ℕ, (fun _ _ => false : ℕ → ℕ → Bool) a b =
      (fun _ _ => false : ℕ → ℕ → Bool) b a) ∧
    (1 < pairAtDistHalf.length) ∧ (pairAtDistHalf.length ≤ ([1, 1] : List ℚ).length) ∧
    ((mergedCandidates pairAtDistHalf.length
        (bruteRepelling [1, 1] (fun _ _ => false) pairAtDistHalf) 1).Nodup ∧
    ((0 : ℕ) ∈ mergedCandidates pairAtDistHalf.length
        (bruteRepelling [1, 1] (fun _ _ => false) pairAtDistHalf) 1 ↔
      0 < pairAtDistHalf.length ∧ (0 : ℕ) ≠ 1 ∧
        (fun _ _ => false : ℕ → ℕ → Bool) 1 0 = false ∧
        distSq (posAt pairAtDistHalf 1) (posAt pairAtDistHalf 0) <
          (wAt [1, 1] 1 * wAt [1, 1] 0) ^ 2)) :=
  ⟨fun _ _ => rfl, by decide, by decide,
    brute_pass_pair_exactly_once [1, 1] pairAtDistHalf (fun _ _ => false) 1 0
      (fun _ _ => rfl) (by decide) (by decide)⟩

/-! ## The recursive axis-split tree (src/atree.rs) -/

/-- Leaf payload: contiguous range into the permutation, bucket lookup
table, and the lookup geometry. -/
structure Snn where
  offset : ℕ
  len : ℕ
  lut : List ℕ
  min : ℚ
  resolution : ℚ

/-- A tree slot: internal split node or leaf. -/
inductive ALayer where
  | node (split : ℚ)
  | leaf (snn : Snn)

/-- `const LEAFSIZE: usize = 50`. -/
def LEAFSIZE : ℕ := 50

/-- The truncating cast `as usize`/`as i32` applied to a nonnegative-or-
clamped float value: negative values clamp to 0, others round toward
zero. -/
def ratToIdx (q : ℚ) : ℕ :=
  if q < 0 then 0 else (⌊q⌋).toNat

/-- The tie walk of `Layer::new`: starting from `len/2`, decrement while
the previous coordinate equals the split value. -/
def walkLeft (c : ℕ → ℚ) (split : ℚ) : ℕ → ℕ
  | 0 => 0
  | k + 1 => if c k = split then walkLeft c split k else k + 1

/-- `Layer::new` (src/atree.rs lines 86-151): sort the slice by the bit
pattern key; small slices become leaves carrying the bucket LUT
(`min = floor(first)`, `max = ceil(last)`, `resolution = 50/(max-min)`,
bucket i counting the entries strictly below `min + i/resolution`);
larger slices record the median split (ties walked to the left) and
recurse on the two halves.  An empty slice panics on `d_pos[0]` (none);
the fuel bounds the recursion depth and exceeds it on every input that
does not panic. -/
def layerNew {D : ℕ} : ℕ → (ℕ → DVec D) → List ℕ → ℕ → ℕ → ℕ → List ALayer →
    Option (List ℕ × List ℚ × List ALayer)
  | 0, _, _, _, _, _, _ => none
  | fuel + 1, pos, nodes, depth, layerId, offset, layers =>
    let sorted := sortStep pos depth nodes
    if sorted.length ≤ LEAFSIZE then
      if sorted = [] then none
      else
        let dpos := sorted.map (fun i => coord (pos i) depth)
        let mn : ℚ := (⌊dpos.headD 0⌋ : ℤ)
        let mx : ℚ := (⌈dpos.getLastD 0⌉ : ℤ)
        let res : ℚ := 50 / (mx - mn)
        let count := ratToIdx ((mx - mn) * res)
        let lut := (List.range count).map
          (fun (i : ℕ) =>
            (dpos.takeWhile (fun x => decide (x < (i : ℚ) / res + mn))).length)
        some (sorted, dpos,
          layers.set layerId (ALayer.leaf ⟨offset, sorted.length, lut, mn, res⟩))
    else
      let cf := fun j => coord (pos (sorted.getD j 0)) depth
      let split := cf (sorted.length / 2)
      let splitPos := walkLeft cf split (sorted.length / 2)
      match layerNew fuel pos (sorted.take splitPos) ((depth + 1) % D)
          (2 * layerId + 1) offset layers with
      | none => none
      | some (aIds, aD, layers1) =>
        match layerNew fuel pos (sorted.drop splitPos) ((depth + 1) % D)
            (2 * layerId + 2) (offset + splitPos) layers1 with
        | none => none
        | some (bIds, bD, layers2) =>
          some (aIds ++ bIds, aD ++ bD, layers2.set layerId (ALayer.node split))

/-- The state of `ATree` after `update_positions`. -/
structure ATreeState (D : ℕ) where
  positions : List (DVec D)
  positionsSorted : List (DVec D)
  nodeIds : List ℕ
  dPos : List ℚ
  layers : List ALayer

/-- `ATree::update_positions` (src/atree.rs lines 42-63): copy the
positions, rebuild the layers from the identity permutation (asserting
the layer count), and store the permuted positions and coordinates. -/
def atreeUpdatePositions {D : ℕ} (s : ATreeState D) (P : List (DVec D)) :
    Option (ATreeState D) :=
  if s.layers.length ≠ P.length then none
  else
    match layerNew (P.length + 1) (posAt P) (List.range P.length) 0 0 0 s.layers with
    | none => none
    | some (ids, dpos, layers2) =>
      some ⟨P, ids.map (posAt P), ids, dpos, layers2⟩

/-- `ATree::new` (src/atree.rs lines 157-171): one node slot per
position, then an update when nonempty. -/
def atreeNew {D : ℕ} (P : List (DVec D)) : Option (ATreeState D) :=
  let s : ATreeState D := ⟨P, [], [], [], List.replicate P.length (ALayer.node 0)⟩
  if P = [] then some s
  else atreeUpdatePositions s P

/-- Write one component of the accumulated per-axis displacement vector
(`distances[depth] = dist`). -/
def setCoord {D : ℕ} (p : DVec D) (d : ℕ) (x : ℚ) : DVec D :=
  fun j => if j.1 = d then x else p j

/-- The leaf scan of `query_recursive`: from a start index, stop at the
first coordinate above the bracket, push every node whose full squared
distance is at most the original squared radius.  The countdown `k` is
the remaining length `offset + len - i` of the Rust `for` range. -/
def scanLeaf {D : ℕ} (dpos : List ℚ) (spos : List (DVec D)) (ids : List ℕ)
    (own : DVec D) (orig mx : ℚ) : ℕ → ℕ → List ℕ
  | _, 0 => []
  | i, k + 1 =>
    if mx < dpos.getD i 0 then []
    else
      (if distSq own (spos.getD i (fun _ => 0)) ≤ orig then [ids.getD i 0] else []) ++
        scanLeaf dpos spos ids own orig mx (i + 1) k

/-- `ATree::query_recursive` (src/atree.rs lines 175-277).  At an
internal node descend into the same-side child, reduce the remaining
squared budget by the incremental cost of crossing the plane, prune when
it drops to zero or below, else descend into the other child.  At a leaf
bracket the split coordinate with the square root of the remaining
budget plus the accumulated axis displacement, enter through the bucket
LUT and scan.  Out-of-range layer reads panic (none); the fuel exceeds
any reachable depth at the call site. -/
def queryRec {D : ℕ} (st : ATreeState D) (index : ℕ) :
    ℕ → ℕ → ℕ → ℚ → ℚ → DVec D → Option (List ℕ)
  | 0, _, _, _, _, _ => none
  | fuel + 1, depth, layerId, dimR, orig, dists =>
    match st.layers.get? layerId with
    | none => none
    | some layer =>
      let ownPos := coord (posAt st.positions index) depth
      match layer with
      | ALayer.node split =>
        let own := if ownPos < split then 2 * layerId + 1 else 2 * layerId + 2
        let other := if ownPos < split then 2 * layerId + 2 else 2 * layerId + 1
        match queryRec st index fuel ((depth + 1) % D) own dimR orig dists with
        | none => none
        | some res1 =>
          let dist := ownPos - split
          let d2 := dist - coord dists depth
          let x := 2 * coord dists depth * d2 + d2 ^ 2
          let reduced := dimR - x
          if reduced ≤ 0 then some res1
          else
            match queryRec st index fuel ((depth + 1) % D) other reduced orig
                (setCoord dists depth dist) with
            | none => none
            | some res2 => some (res1 ++ res2)
      | ALayer.leaf snn =>
        let dd2 := (coord dists depth) ^ 2
        let rs := ratSqrt (dimR + dd2)
        let mn := ownPos - rs
        let mx := ownPos + rs
        let idx := min (ratToIdx ((mn - snn.min) * snn.resolution))
          (snn.lut.length - 1)
        if snn.lut.isEmpty then some []
        else
          some (scanLeaf st.dPos st.positionsSorted st.nodeIds
            (posAt st.positions index) orig mx (snn.lut.getD idx 0 + snn.offset)
            ((snn.offset + snn.len) - (snn.lut.getD idx 0 + snn.offset)))

/-- `ATree::nearest_neighbors` (src/atree.rs lines 280-288): the query
runs with squared budget and original radius both
`(radius * weight(v)^2)^2`, appending the hits to `results`. -/
def atreeNearestNeighbors {D : ℕ} (st : ATreeState D) (W : ℕ → ℚ) (v : ℕ)
    (radius : ℚ) (out : List ℕ) : Option (List ℕ) :=
  (queryRec st v (st.layers.length + 1) 0 0 ((radius * (W v) ^ 2) ^ 2)
    ((radius * (W v) ^ 2) ^ 2) (fun _ => 0)).map (fun r => out ++ r)

/-- Two nodes on the first axis at distance 3/8, both with weight 1. -/
def atreeExP : List (DVec 2) := [(fun _ => 0), (fun i => if i.1 = 0 then 3/8 else 0)]

/-- The bucket LUT the tree builds for `atreeExP`. -/
def exLut : List ℕ :=
  (List.range 50).map
    (fun (i : ℕ) =>
      (([(0 : ℚ), 3/8]).takeWhile (fun x => decide (x < (i : ℚ) / 50))).length)

/-- The tree state built from `atreeExP`: one leaf holding both nodes. -/
def exSt : ATreeState 2 :=
  ⟨atreeExP, [(fun _ => 0), (fun i => if i.1 = 0 then 3/8 else 0)], [0, 1], [0, 3/8],
    [ALayer.leaf ⟨0, 2, exLut, 0, 50⟩, ALayer.node 0]⟩

theorem exSort_eval : sortStep (posAt atreeExP) 0 [0, 1] = [0, 1] := by
  unfold sortStep
  simp only [List.insertionSort, List.orderedInsert]
  rw [if_pos]
  norm_num [keyLE, coord, posAt, atreeExP]

theorem exLayer_eval :
    layerNew 3 (posAt atreeExP) (List.range 2) 0 0 0 (List.replicate 2 (ALayer.node 0)) =
      some ([0, 1], [0, 3/8],
        [ALayer.leaf ⟨0, 2, exLut, 0, 50⟩, ALayer.node 0]) := by
  have hceil : (⌈(3/8 : ℚ)⌉ : ℤ) = 1 := by
    rw [Int.ceil_eq_iff] <;> norm_num
  have h50 : (⌊(50 : ℚ)⌋ : ℤ) = 50 := by
    rw [Int.floor_eq_iff] <;> norm_num
  rw [show (3 : ℕ) = 2 + 1 from rfl]
  rw [show List.range 2 = [0, 1] from rfl]
  simp only [layerNew]
  rw [exSort_eval]
  norm_num [LEAFSIZE, coord, posAt, atreeExP, ratToIdx, hceil, h50, exLut,
    List.getD_cons_zero, List.getD_cons_succ, List.headD, List.getLastD, List.set]
  exact ⟨by simp, by rw [show Int.toNat 50 = 50 from rfl]⟩

theorem atreeNew_eval : atreeNew atreeExP = some exSt := by
  simp only [atreeNew]
  rw [if_neg (by simp [atreeExP])]
  simp only [atreeUpdatePositions, atreeExP, List.length_cons, List.length_nil]
  rw [if_neg (by norm_num)]
  rw [show ((fun _ => 0 : DVec 2) :: [fun i => if i.1 = 0 then 3/8 else 0]) = atreeExP
    from rfl]
  rw [exLayer_eval]
  simp only [exSt]
  norm_num [posAt, atreeExP, List.getD_cons_zero, List.getD_cons_succ]

theorem ratSqrt_sixteenth : ratSqrt (1/16 : ℚ) = 1/4 := by
  rw [show (1/16 : ℚ) = (1/4) ^ 2 by norm_num, ratSqrt_of_sq]
  norm_num

theorem exLut_getD_zero : exLut[0]?.getD 0 = 0 := by
  have h1 : exLut[0]? = some ((([(0 : ℚ), 3/8]).takeWhile
      (fun x => decide (x < ((0 : ℕ) : ℚ) / 50))).length) := by
    unfold exLut
    rw [List.getElem?_map, List.getElem?_range (by norm_num)]
    rfl
  rw [h1]
  rw [List.takeWhile_cons]
  norm_num

theorem exLut_getD_six : exLut[6]?.getD 0 = 1 := by
  have h1 : exLut[6]? = some ((([(0 : ℚ), 3/8]).takeWhile
      (fun x => decide (x < ((6 : ℕ) : ℚ) / 50))).length) := by
    unfold exLut
    rw [List.getElem?_map, List.getElem?_range (by norm_num)]
    rfl
  rw [h1]
  rw [List.takeWhile_cons, List.takeWhile_cons]
  norm_num

theorem exLut_not_empty : exLut.isEmpty = false := by
  have hlen : exLut.length = 50 := by simp [exLut]
  cases h : exLut.isEmpty
  · rfl
  · rw [List.isEmpty_iff] at h
    rw [h] at hlen
    simp at hlen

theorem exQuery_zero :
    atreeNearestNeighbors exSt (fun _ => 1) 0 (1/4) [] = some [0] := by
  simp only [atreeNearestNeighbors, exSt]
  rw [show ([ALayer.leaf ⟨0, 2, exLut, 0, 50⟩, ALayer.node 0] : List ALayer).length + 1
    = 2 + 1 from by simp]
  simp only [queryRec]
  norm_num [coord, posAt, atreeExP, ratSqrt_sixteenth, exLut_getD_zero, exLut_not_empty,
    ratToIdx, scanLeaf, distSq, Fin.sum_univ_two,
    List.getD_cons_zero, List.getD_cons_succ]

theorem exLut_getElem_six (h : 6 < exLut.length) : exLut[6] = 1 := by
  have h2 := exLut_getD_six
  rw [List.getElem?_eq_getElem h] at h2
  simpa using h2

theorem exQuery_one :
    atreeNearestNeighbors exSt (fun _ => 1) 1 (1/4) [] = some [1] := by
  have hfloor : (⌊(25/4 : ℚ)⌋ : ℤ) = 6 := by
    rw [Int.floor_eq_iff] <;> norm_num
  have hlen : exLut.length = 50 := by simp [exLut]
  simp only [atreeNearestNeighbors, exSt]
  rw [show ([ALayer.leaf ⟨0, 2, exLut, 0, 50⟩, ALayer.node 0] : List ALayer).length + 1
    = 2 + 1 from by simp]
  simp only [queryRec]
  norm_num [coord, posAt, atreeExP, ratSqrt_sixteenth, exLut_not_empty,
    ratToIdx, hfloor, hlen,
    List.getD_cons_zero, List.getD_cons_succ]
  simp only [show Int.toNat 6 = 6 from rfl, exLut_getElem_six]
  norm_num [scanLeaf, distSq, Fin.sum_univ_two, coord, posAt, atreeExP,
    List.getD_cons_zero, List.getD_cons_succ]

/-- The brute-force index reports node 0 from node 1 at radius parameter
1/4 on `atreeExP`. -/
theorem exBrute_one :
    bruteNearestNeighbors [1, 1] atreeExP 1 (1/4) [] = [0] := by
  norm_num [bruteNearestNeighbors, List.enum, wAt, posAt, atreeExP, distSq,
    Fin.sum_univ_two, coord, List.filterMap, List.getD_cons_zero, List.getD_cons_succ]

/-- C1 is false as stated: on two unit-weight nodes at distance 3/8 with
radius parameter 1/4, the brute-force index reports the pair (9/64 <
1·1/4) so its symmetric closure relates nodes 0 and 1, but the tree
query squares the radius parameter a second time (budget
(1/4·1²)² = 1/16 < 9/64), so neither tree query reports the other node:
the symmetric closures differ and the tree has a false negative. -/
theorem atree_brute_symmetric_closure_differs :
    atreeNew atreeExP = some exSt ∧
    0 ∈ bruteNearestNeighbors [1, 1] atreeExP 1 (1/4) [] ∧
    atreeNearestNeighbors exSt (fun _ => 1) 0 (1/4) [] = some [0] ∧
    atreeNearestNeighbors exSt (fun _ => 1) 1 (1/4) [] = some [1] ∧
    ¬(1 ∈ (atreeNearestNeighbors exSt (fun _ => 1) 0 (1/4) []).getD [] ∨
      0 ∈ (atreeNearestNeighbors exSt (fun _ => 1) 1 (1/4) []).getD []) := by
  refine ⟨atreeNew_eval, ?_, exQuery_zero, exQuery_one, ?_⟩
  · rw [exBrute_one]
    simp
  · rw [exQuery_zero, exQuery_one]
    simp

/-! ### The single-leaf regime of the tree (N ≤ LEAFSIZE) -/

/-- The permutation a single-leaf build stores: the identity range sorted
by the dimension-0 key. -/
def leafSorted {D : ℕ} (pos : ℕ → DVec D) (N : ℕ) : List ℕ :=
  sortStep pos 0 (List.range N)

/-- The sorted dimension-0 coordinates of a single-leaf build. -/
def leafDpos {D : ℕ} (pos : ℕ → DVec D) (N : ℕ) : List ℚ :=
  (leafSorted pos N).map (fun i => coord (pos i) 0)

/-- `snn.min`: the floor of the smallest sorted coordinate. -/
def leafMin {D : ℕ} (pos : ℕ → DVec D) (N : ℕ) : ℚ :=
  ((⌊(leafDpos pos N).headD 0⌋ : ℤ) : ℚ)

/-- The ceiling of the largest sorted coordinate. -/
def leafMax {D : ℕ} (pos : ℕ → DVec D) (N : ℕ) : ℚ :=
  ((⌈(leafDpos pos N).getLastD 0⌉ : ℤ) : ℚ)

/-- `snn.resolution = 50 / (max - min)`. -/
def leafRes {D : ℕ} (pos : ℕ → DVec D) (N : ℕ) : ℚ :=
  50 / (leafMax pos N - leafMin pos N)

/-- The number of LUT buckets `((max - min) * resolution) as usize`. -/
def leafCount {D : ℕ} (pos : ℕ → DVec D) (N : ℕ) : ℕ :=
  ratToIdx ((leafMax pos N - leafMin pos N) * leafRes pos N)

/-- The bucket LUT of a single-leaf build. -/
def leafLut {D : ℕ} (pos : ℕ → DVec D) (N : ℕ) : List ℕ :=
  (List.range (leafCount pos N)).map
    (fun (i : ℕ) => ((leafDpos pos N).takeWhile
      (fun x => decide (x < (i : ℚ) / leafRes pos N + leafMin pos N))).length)

/-- The leaf payload of a single-leaf build. -/
def leafSnn {D : ℕ} (pos : ℕ → DVec D) (N : ℕ) : Snn :=
  ⟨0, N, leafLut pos N, leafMin pos N, leafRes pos N⟩

/-- The tree state after building from at most `LEAFSIZE` positions. -/
def leafState {D : ℕ} (P : List (DVec D)) : ATreeState D :=
  ⟨P, (leafSorted (posAt P) P.length).map (posAt P), leafSorted (posAt P) P.length,
    leafDpos (posAt P) P.length,
    (List.replicate P.length (ALayer.node 0)).set 0
      (ALayer.leaf (leafSnn (posAt P) P.length))⟩

theorem leafSorted_length {D : ℕ} (pos : ℕ → DVec D) (N : ℕ) :
    (leafSorted pos N).length = N :=
  ((sortStep_perm pos 0 (List.range N)).length_eq).trans (List.length_range N)

theorem leafSorted_mem {D : ℕ} (pos : ℕ → DVec D) (N : ℕ) (u : ℕ) :
    u ∈ leafSorted pos N ↔ u < N := by
  unfold leafSorted
  rw [(sortStep_perm pos 0 (List.range N)).mem_iff, List.mem_range]

theorem leafDpos_length {D : ℕ} (pos : ℕ → DVec D) (N : ℕ) :
    (leafDpos pos N).length = N := by
  rw [leafDpos, List.length_map, leafSorted_length]

/-- The dimension-0 coordinate of the zero vector is zero. -/
theorem coord_zero {D : ℕ} (d : ℕ) : coord ((fun _ => 0) : DVec D) d = 0 := by
  unfold coord
  split <;> rfl

/-- One split coordinate difference squared never exceeds the full
squared distance (also at dimensions at or above `D`, where both
coordinates read as zero). -/
theorem coordDiff_sq_le_distSq {D : ℕ} (a b : DVec D) (d : ℕ) :
    (coord a d - coord b d) ^ 2 ≤ distSq a b := by
  by_cases hd : d < D
  · exact coord_sq_le_distSq a b d hd
  · have ha : coord a d = 0 := by unfold coord; rw [dif_neg hd]
    have hb : coord b d = 0 := by unfold coord; rw [dif_neg hd]
    rw [ha, hb]
    simpa using distSq_nonneg a b

/-- For at most `LEAFSIZE` nodes the layer build produces a single leaf
at slot 0 holding the whole sorted range. -/
theorem layerNew_leaf {D : ℕ} (pos : ℕ → DVec D) (N fuel : ℕ) (L : List ALayer)
    (h1 : 1 ≤ N) (h50 : N ≤ 50) :
    layerNew (fuel + 1) pos (List.range N) 0 0 0 L =
      some (leafSorted pos N, leafDpos pos N,
        L.set 0 (ALayer.leaf (leafSnn pos N))) := by
  simp only [layerNew]
  rw [show sortStep pos 0 (List.range N) = leafSorted pos N from rfl]
  rw [if_pos (by rw [leafSorted_length]; exact h50)]
  rw [if_neg (by
    intro hcon
    have := leafSorted_length pos N
    rw [hcon] at this
    simp at this
    omega)]
  rw [show (leafSorted pos N).map (fun i => coord (pos i) 0) = leafDpos pos N from rfl]
  simp only [leafSnn, leafMin, leafMax, leafRes, leafCount, leafLut,
    leafSorted_length]

/-- Building the tree from a nonempty list of at most `LEAFSIZE`
positions yields the single-leaf state. -/
theorem atreeNew_leaf {D : ℕ} (P : List (DVec D))
    (h1 : 1 ≤ P.length) (h50 : P.length ≤ 50) :
    atreeNew P = some (leafState P) := by
  simp only [atreeNew]
  rw [if_neg (by
    intro hcon
    rw [hcon] at h1
    simp at h1)]
  simp only [atreeUpdatePositions, List.length_replicate]
  rw [if_neg (by simp)]
  rw [layerNew_leaf (posAt P) P.length P.length
    (List.replicate P.length (ALayer.node 0)) h1 h50]
  rfl

/-- Under nonnegative dimension-0 coordinates the sorted coordinate list
is pairwise nondecreasing. -/
theorem leafDpos_pairwise {D : ℕ} (pos : ℕ → DVec D) (N : ℕ)
    (hnn : ∀ i < N, 0 ≤ coord (pos i) 0) :
    (leafDpos pos N).Pairwise (· ≤ ·) := by
  unfold leafDpos
  rw [List.pairwise_map]
  refine List.Pairwise.imp_of_mem ?_ (sortStep_sorted_key pos 0 (List.range N))
  intro a b ha hb hk
  have ha2 := hnn a ((leafSorted_mem pos N a).mp ha)
  have hb2 := hnn b ((leafSorted_mem pos N b).mp hb)
  exact (keyLE_iff_le_of_nonneg ha2 hb2).mp hk

/-- `getD` is monotone on a pairwise-nondecreasing rational list. -/
theorem pairwise_le_getD (l : List ℚ) (h : l.Pairwise (· ≤ ·)) (j1 j2 : ℕ)
    (hj : j1 ≤ j2) (hlen : j2 < l.length) : l.getD j1 0 ≤ l.getD j2 0 := by
  rcases Nat.lt_or_ge j1 j2 with hlt | hge
  · rw [List.pairwise_iff_getElem] at h
    have h1 : l.getD j1 0 = l[j1] := by
      rw [List.getD_eq_getElem?_getD, List.getElem?_eq_getElem (by omega)]
      rfl
    have h2 : l.getD j2 0 = l[j2] := by
      rw [List.getD_eq_getElem?_getD, List.getElem?_eq_getElem hlen]
      rfl
    rw [h1, h2]
    exact h j1 j2 (by omega) hlen hlt
  · have : j1 = j2 := by omega
    rw [this]

/-- Every position strictly inside the `takeWhile` prefix satisfies the
predicate. -/
theorem takeWhile_getD_sat (p : ℚ → Bool) :
    ∀ (l : List ℚ) (j : ℕ), j < (l.takeWhile p).length → p (l.getD j 0) = true := by
  intro l
  induction l with
  | nil => intro j hj; simp [List.takeWhile] at hj
  | cons a t ih =>
    intro j hj
    rw [List.takeWhile_cons] at hj
    by_cases hpa : p a
    · rw [if_pos hpa] at hj
      cases j with
      | zero => simpa using hpa
      | succ k =>
        rw [List.getD_cons_succ]
        exact ih k (by simpa using hj)
    · rw [if_neg hpa] at hj
      simp at hj

/-- The `takeWhile` prefix is never longer than the list. -/
theorem takeWhile_length_le (p : ℚ → Bool) (l : List ℚ) :
    (l.takeWhile p).length ≤ l.length := by
  induction l with
  | nil => simp [List.takeWhile]
  | cons a t ih =>
    rw [List.takeWhile_cons]
    by_cases hpa : p a
    · rw [if_pos hpa]
      simpa using ih
    · rw [if_neg hpa]
      simp

/-- When the integer bracket is nontrivial the LUT has exactly 50
buckets. -/
theorem leafCount_eq {D : ℕ} (pos : ℕ → DVec D) (N : ℕ)
    (h : leafMin pos N < leafMax pos N) : leafCount pos N = 50 := by
  unfold leafCount leafRes
  have hne : leafMax pos N - leafMin pos N ≠ 0 := by
    intro hcon
    rw [sub_eq_zero] at hcon
    rw [hcon] at h
    exact lt_irrefl _ h
  rw [mul_div_cancel₀ _ hne]
  unfold ratToIdx
  rw [if_neg (by norm_num)]
  rw [show (⌊(50 : ℚ)⌋ : ℤ) = 50 by rw [Int.floor_eq_iff] <;> norm_num]
  rfl

theorem leafLut_length {D : ℕ} (pos : ℕ → DVec D) (N : ℕ) :
    (leafLut pos N).length = leafCount pos N := by
  rw [leafLut, List.length_map, List.length_range]

theorem leafLut_getD {D : ℕ} (pos : ℕ → DVec D) (N idx : ℕ)
    (h : idx < leafCount pos N) :
    (leafLut pos N).getD idx 0 =
      ((leafDpos pos N).takeWhile
        (fun x => decide (x < (idx : ℚ) / leafRes pos N + leafMin pos N))).length := by
  unfold leafLut
  rw [List.getD_eq_getElem?_getD, List.getElem?_map, List.getElem?_range h]
  rfl

/-- `snn.min` is a lower bound for every sorted coordinate. -/
theorem leafMin_le {D : ℕ} (pos : ℕ → DVec D) (N : ℕ)
    (hnn : ∀ i < N, 0 ≤ coord (pos i) 0) (h1 : 1 ≤ N) :
    ∀ j, j < N → leafMin pos N ≤ (leafDpos pos N).getD j 0 := by
  intro j hj
  have hhead : (leafDpos pos N).headD 0 = (leafDpos pos N).getD 0 0 := by
    cases hcase : leafDpos pos N <;> rfl
  have hle0 : leafMin pos N ≤ (leafDpos pos N).getD 0 0 := by
    unfold leafMin
    rw [← hhead]
    exact_mod_cast Int.floor_le _
  refine hle0.trans ?_
  refine pairwise_le_getD _ (leafDpos_pairwise pos N hnn) 0 j (by omega) ?_
  rw [leafDpos_length]
  exact hj

/-- For nonnegative arguments the truncating cast stays below the
argument. -/
theorem ratToIdx_le (q : ℚ) (h : 0 ≤ q) : ((ratToIdx q : ℕ) : ℚ) ≤ q := by
  unfold ratToIdx
  rw [if_neg (not_lt.mpr h)]
  have h0 : (0 : ℤ) ≤ ⌊q⌋ := Int.floor_nonneg.mpr h
  have h1 : ((⌊q⌋.toNat : ℕ) : ℚ) = ((⌊q⌋ : ℤ) : ℚ) := by
    rw [show ((⌊q⌋.toNat : ℕ) : ℚ) = (((⌊q⌋.toNat : ℕ) : ℤ) : ℚ) by push_cast; ring]
    rw [Int.toNat_of_nonneg h0]
  rw [h1]
  exact Int.floor_le q

/-- Characterization of the leaf scan on a window that is sorted by the
split coordinate: it emits exactly the ids of window positions whose
coordinate is below the bracket and whose full squared distance is
within the original budget. -/
theorem scanLeaf_mem {D : ℕ} (dpos : List ℚ) (spos : List (DVec D)) (ids : List ℕ)
    (own : DVec D) (orig mx : ℚ) :
    ∀ (k i : ℕ),
      (∀ j1 j2, i ≤ j1 → j1 ≤ j2 → j2 < i + k → dpos.getD j1 0 ≤ dpos.getD j2 0) →
      ∀ u, u ∈ scanLeaf dpos spos ids own orig mx i k ↔
        ∃ j, i ≤ j ∧ j < i + k ∧ dpos.getD j 0 ≤ mx ∧
          distSq own (spos.getD j (fun _ => 0)) ≤ orig ∧ ids.getD j 0 = u := by
  intro k
  induction k with
  | zero =>
    intro i hs u
    simp only [scanLeaf, List.not_mem_nil, false_iff]
    rintro ⟨j, h1, h2, _⟩
    omega
  | succ n ih =>
    intro i hs u
    simp only [scanLeaf]
    by_cases hstop : mx < dpos.getD i 0
    · rw [if_pos hstop]
      simp only [List.not_mem_nil, false_iff]
      rintro ⟨j, hj1, hj2, hj3, _⟩
      have := hs i j (le_refl i) hj1 hj2
      linarith
    · rw [if_neg hstop]
      rw [List.mem_append]
      rw [ih (i + 1) (fun j1 j2 a b c => hs j1 j2 (by omega) b (by omega)) u]
      constructor
      · rintro (hleft | ⟨j, hj1, hj2, hj3, hj4, hj5⟩)
        · by_cases hdist : distSq own (spos.getD i (fun _ => 0)) ≤ orig
          · rw [if_pos hdist] at hleft
            rw [List.mem_singleton] at hleft
            exact ⟨i, le_refl i, by omega, not_lt.mp hstop, hdist, hleft.symm⟩
          · rw [if_neg hdist] at hleft
            simp at hleft
        · exact ⟨j, by omega, by omega, hj3, hj4, hj5⟩
      · rintro ⟨j, hj1, hj2, hj3, hj4, hj5⟩
        rcases Nat.eq_or_lt_of_le hj1 with heq | hlt
        · left
          rw [← heq] at hj4 hj5
          rw [if_pos hj4]
          exact List.mem_singleton.mpr hj5.symm
        · right
          exact ⟨j, by omega, by omega, hj3, hj4, hj5⟩

/-- One step of the query at a leaf slot, with the `let`s spelled out. -/
theorem queryRec_leaf_step {D : ℕ} (st : ATreeState D) (index fuel depth layerId : ℕ)
    (dimR orig : ℚ) (dists : DVec D) (snn : Snn)
    (hget : st.layers.get? layerId = some (ALayer.leaf snn)) :
    queryRec st index (fuel + 1) depth layerId dimR orig dists =
      (if snn.lut.isEmpty then some []
       else
         some (scanLeaf st.dPos st.positionsSorted st.nodeIds
           (posAt st.positions index) orig
           (coord (posAt st.positions index) depth +
             ratSqrt (dimR + (coord dists depth) ^ 2))
           (snn.lut.getD (min (ratToIdx ((coord (posAt st.positions index) depth -
               ratSqrt (dimR + (coord dists depth) ^ 2) - snn.min) * snn.resolution))
             (snn.lut.length - 1)) 0 + snn.offset)
           ((snn.offset + snn.len) -
             (snn.lut.getD (min (ratToIdx ((coord (posAt st.positions index) depth -
                 ratSqrt (dimR + (coord dists depth) ^ 2) - snn.min) * snn.resolution))
               (snn.lut.length - 1)) 0 + snn.offset)))) := by
  simp only [queryRec, hget]

theorem listGetD_eq {α : Type*} (l : List α) (d : α) (j : ℕ) (h : j < l.length) :
    l.getD j d = l[j] := by
  rw [List.getD_eq_getElem?_getD, List.getElem?_eq_getElem h]
  rfl

theorem listGetD_map {α β : Type*} (f : α → β) (l : List α) (d : β) (d2 : α)
    (j : ℕ) (h : j < l.length) : (l.map f).getD j d = f (l.getD j d2) := by
  rw [List.getD_eq_getElem?_getD, List.getElem?_map, List.getElem?_eq_getElem h]
  rw [listGetD_eq l d2 j h]
  rfl

theorem listGetD_mem {α : Type*} (l : List α) (d : α) (j : ℕ) (h : j < l.length) :
    l.getD j d ∈ l := by
  rw [listGetD_eq l d j h]
  exact List.getElem_mem h

/-- The leaf scan started at bucket `idx` emits exactly the nodes whose
squared distance to node `v` is within the budget, provided the bucket
boundary sits at or below the lower bracket (or at the global minimum). -/
theorem leafScan_mem {D : ℕ} (P : List (DVec D)) (v : ℕ) (r2 : ℚ)
    (h1 : 1 ≤ P.length)
    (hnn : ∀ i < P.length, 0 ≤ coord (posAt P i) 0)
    (hmm : leafMin (posAt P) P.length < leafMax (posAt P) P.length)
    (idx : ℕ) (hidx : idx < 50)
    (hidxle : (idx : ℚ) / leafRes (posAt P) P.length + leafMin (posAt P) P.length ≤
        leafMin (posAt P) P.length ∨
      (idx : ℚ) / leafRes (posAt P) P.length + leafMin (posAt P) P.length ≤
        coord (posAt P v) 0 - ratSqrt r2) (u : ℕ) :
    u ∈ scanLeaf (leafDpos (posAt P) P.length)
        ((leafSorted (posAt P) P.length).map (posAt P))
        (leafSorted (posAt P) P.length) (posAt P v) r2
        (coord (posAt P v) 0 + ratSqrt r2)
        ((leafLut (posAt P) P.length).getD idx 0)
        (P.length - (leafLut (posAt P) P.length).getD idx 0) ↔
      (u < P.length ∧ distSq (posAt P v) (posAt P u) ≤ r2) := by
  have hdlen : (leafDpos (posAt P) P.length).length = P.length := leafDpos_length _ _
  have hslen : (leafSorted (posAt P) P.length).length = P.length := leafSorted_length _ _
  have hidxc : idx < leafCount (posAt P) P.length := by
    rw [leafCount_eq _ _ hmm]
    exact hidx
  have hminidef := leafLut_getD (posAt P) P.length idx hidxc
  have hmini_le : (leafLut (posAt P) P.length).getD idx 0 ≤ P.length := by
    rw [hminidef]
    exact le_trans (takeWhile_length_le _ _) (le_of_eq hdlen)
  have hpair := leafDpos_pairwise (posAt P) P.length hnn
  rw [scanLeaf_mem (leafDpos (posAt P) P.length) _ _ _ _ _
    (P.length - (leafLut (posAt P) P.length).getD idx 0)
    ((leafLut (posAt P) P.length).getD idx 0)
    (fun j1 j2 a b c => pairwise_le_getD _ hpair j1 j2 b (by rw [hdlen]; omega)) u]
  constructor
  · rintro ⟨j, hj1, hj2, hj3, hj4, hj5⟩
    have hjN : j < P.length := by omega
    constructor
    · rw [← hj5]
      exact (leafSorted_mem _ _ _).mp (listGetD_mem _ 0 j (by rw [hslen]; exact hjN))
    · rw [listGetD_map (posAt P) _ _ 0 j (by rw [hslen]; exact hjN), hj5] at hj4
      exact hj4
  · rintro ⟨huN, hdist⟩
    obtain ⟨j, hjlt, hjeq⟩ := List.mem_iff_getElem.mp ((leafSorted_mem _ _ u).mpr huN)
    have hjN : j < P.length := by rw [hslen] at hjlt; exact hjlt
    have hidsj : (leafSorted (posAt P) P.length).getD j 0 = u := by
      rw [listGetD_eq _ 0 j hjlt]
      exact hjeq
    have hcj : (leafDpos (posAt P) P.length).getD j 0 = coord (posAt P u) 0 := by
      unfold leafDpos
      rw [listGetD_map _ _ _ 0 j hjlt, hidsj]
    have habs := coordDiff_sq_le_distSq (posAt P v) (posAt P u) 0
    have hrs0 : 0 ≤ ratSqrt r2 := ratSqrt_nonneg r2
    have hrs2 : r2 ≤ (ratSqrt r2) ^ 2 := ratSqrt_sq_ge r2
    have hup : coord (posAt P u) 0 ≤ coord (posAt P v) 0 + ratSqrt r2 := by
      nlinarith [habs, hdist, hrs0, hrs2]
    have hlo : coord (posAt P v) 0 - ratSqrt r2 ≤ coord (posAt P u) 0 := by
      nlinarith [habs, hdist, hrs0, hrs2]
    have hminij : (leafLut (posAt P) P.length).getD idx 0 ≤ j := by
      by_contra hcon
      push_neg at hcon
      rw [hminidef] at hcon
      have hsat := takeWhile_getD_sat _ (leafDpos (posAt P) P.length) j hcon
      have hsat2 : (leafDpos (posAt P) P.length).getD j 0 <
          (idx : ℚ) / leafRes (posAt P) P.length + leafMin (posAt P) P.length :=
        of_decide_eq_true hsat
      rw [hcj] at hsat2
      rcases hidxle with ht | ht
      · have hge := leafMin_le (posAt P) P.length hnn h1 j hjN
        rw [hcj] at hge
        linarith
      · linarith
    refine ⟨j, hminij, by omega, ?_, ?_, hidsj⟩
    · rw [hcj]
      exact hup
    · rw [listGetD_map (posAt P) _ _ 0 j hjlt, hidsj]
      exact hdist

/-- The bucket the query enters at a single leaf. -/
def leafIdx {D : ℕ} (P : List (DVec D)) (v : ℕ) (r2 : ℚ) : ℕ :=
  min (ratToIdx ((coord (posAt P v) 0 - ratSqrt r2 - leafMin (posAt P) P.length) *
    leafRes (posAt P) P.length)) ((leafLut (posAt P) P.length).length - 1)

/-- The list of hits the single-leaf query returns. -/
def leafScanResult {D : ℕ} (P : List (DVec D)) (v : ℕ) (r2 : ℚ) : List ℕ :=
  scanLeaf (leafDpos (posAt P) P.length)
    ((leafSorted (posAt P) P.length).map (posAt P))
    (leafSorted (posAt P) P.length) (posAt P v) r2
    (coord (posAt P v) 0 + ratSqrt r2)
    ((leafLut (posAt P) P.length).getD (leafIdx P v r2) 0)
    (P.length - (leafLut (posAt P) P.length).getD (leafIdx P v r2) 0)

/-- C1 amended: in the single-leaf regime (between 1 and LEAFSIZE
positions, nonnegative dimension-0 coordinates so the bit-pattern sort
is value-ordered, and a nondegenerate integer bracket), the tree query
with radius parameter `radius` returns, appended to `out`, exactly the
nodes u (including v itself) whose squared distance to node v is at
most `(radius·weight(v)²)²`.  This is the tree's actual contract; it
differs from the brute-force contract both in the threshold (the radius
parameter is squared once more and scaled by `weight(v)⁴` alone, not by
`(weight(v)·weight(u))²`), in strictness (≤ instead of <), and in the
candidate set (no `u < v` restriction and v itself is reported). -/
theorem atree_single_leaf_exact {D : ℕ} (P : List (DVec D)) (W : ℕ → ℚ) (v : ℕ)
    (radius : ℚ) (out : List ℕ)
    (h1 : 1 ≤ P.length) (h50 : P.length ≤ 50)
    (hnn : ∀ i < P.length, 0 ≤ coord (posAt P i) 0)
    (hmm : leafMin (posAt P) P.length < leafMax (posAt P) P.length) :
    ∃ st L, atreeNew P = some st ∧
      atreeNearestNeighbors st W v radius out = some (out ++ L) ∧
      ∀ u, u ∈ L ↔ (u < P.length ∧
        distSq (posAt P v) (posAt P u) ≤ (radius * W v ^ 2) ^ 2) := by
  have hres : 0 < leafRes (posAt P) P.length := by
    unfold leafRes
    exact div_pos (by norm_num) (by linarith)
  have hlutlen : (leafLut (posAt P) P.length).length = 50 := by
    rw [leafLut_length, leafCount_eq _ _ hmm]
  have hlutne : (leafLut (posAt P) P.length).isEmpty = false := by
    cases hcase : (leafLut (posAt P) P.length).isEmpty
    · rfl
    · rw [List.isEmpty_iff] at hcase
      rw [hcase] at hlutlen
      simp at hlutlen
  have hget : (leafState P).layers.get? 0 =
      some (ALayer.leaf (leafSnn (posAt P) P.length)) := by
    obtain ⟨M, hM⟩ : ∃ M, P.length = M + 1 := ⟨P.length - 1, by omega⟩
    show ((List.replicate P.length (ALayer.node 0)).set 0 _).get? 0 = _
    rw [hM, List.replicate_succ]
    rfl
  have hlayerslen : (leafState P).layers.length = P.length := by
    show ((List.replicate P.length (ALayer.node 0)).set 0 _).length = _
    rw [List.length_set, List.length_replicate]
  have hdd : (radius * W v ^ 2) ^ 2 + (coord ((fun _ => 0) : DVec D) 0) ^ 2
      = (radius * W v ^ 2) ^ 2 := by
    rw [coord_zero]
    ring
  have hstep := queryRec_leaf_step (leafState P) v P.length 0 0
    ((radius * W v ^ 2) ^ 2) ((radius * W v ^ 2) ^ 2) (fun _ => 0)
    (leafSnn (posAt P) P.length) hget
  rw [hdd] at hstep
  simp only [leafSnn, leafState] at hstep
  rw [hlutne] at hstep
  simp only [Bool.false_eq_true, if_false, Nat.add_zero, Nat.zero_add] at hstep
  have hstep2 : queryRec (leafState P) v (P.length + 1) 0 0
      ((radius * W v ^ 2) ^ 2) ((radius * W v ^ 2) ^ 2) (fun _ => 0) =
      some (leafScanResult P v ((radius * W v ^ 2) ^ 2)) := hstep
  have hmain : atreeNearestNeighbors (leafState P) W v radius out =
      some (out ++ leafScanResult P v ((radius * W v ^ 2) ^ 2)) := by
    simp only [atreeNearestNeighbors, hlayerslen, hstep2]
    rfl
  refine ⟨leafState P, leafScanResult P v ((radius * W v ^ 2) ^ 2),
    atreeNew_leaf P h1 h50, hmain, ?_⟩
  intro u
  unfold leafScanResult leafIdx
  have hidx50 : min (ratToIdx ((coord (posAt P v) 0 -
      ratSqrt ((radius * W v ^ 2) ^ 2) - leafMin (posAt P) P.length) *
        leafRes (posAt P) P.length))
      ((leafLut (posAt P) P.length).length - 1) < 50 := by
    have hh := Nat.min_le_right (ratToIdx ((coord (posAt P v) 0 -
      ratSqrt ((radius * W v ^ 2) ^ 2) - leafMin (posAt P) P.length) *
        leafRes (posAt P) P.length))
      ((leafLut (posAt P) P.length).length - 1)
    rw [hlutlen] at hh
    omega
  refine leafScan_mem P v ((radius * W v ^ 2) ^ 2) h1 hnn hmm _ hidx50 ?_ u
  rcases lt_or_ge (coord (posAt P v) 0 - ratSqrt ((radius * W v ^ 2) ^ 2) -
      leafMin (posAt P) P.length) 0 with hc | hc
  · left
    have harg : (coord (posAt P v) 0 - ratSqrt ((radius * W v ^ 2) ^ 2) -
        leafMin (posAt P) P.length) * leafRes (posAt P) P.length < 0 :=
      mul_neg_of_neg_of_pos hc hres
    rw [show ratToIdx ((coord (posAt P v) 0 - ratSqrt ((radius * W v ^ 2) ^ 2) -
        leafMin (posAt P) P.length) * leafRes (posAt P) P.length) = 0 from by
      unfold ratToIdx
      rw [if_pos harg]]
    rw [Nat.zero_min]
    norm_num
  · right
    have harg : 0 ≤ (coord (posAt P v) 0 - ratSqrt ((radius * W v ^ 2) ^ 2) -
        leafMin (posAt P) P.length) * leafRes (posAt P) P.length :=
      mul_nonneg hc (le_of_lt hres)
    have hA : ((min (ratToIdx ((coord (posAt P v) 0 -
        ratSqrt ((radius * W v ^ 2) ^ 2) - leafMin (posAt P) P.length) *
          leafRes (posAt P) P.length))
        ((leafLut (posAt P) P.length).length - 1) : ℕ) : ℚ) ≤
        ((ratToIdx ((coord (posAt P v) 0 - ratSqrt ((radius * W v ^ 2) ^ 2) -
          leafMin (posAt P) P.length) * leafRes (posAt P) P.length) : ℕ) : ℚ) := by
      exact_mod_cast Nat.min_le_left _ _
    have hB := ratToIdx_le _ harg
    have hC := le_trans hA hB
    have hD := (div_le_iff₀ hres).mpr hC
    linarith [hD]

/-- Witness for the amended C1 at the two-node instance `atreeExP`,
v = 0, radius 1/4. -/
theorem atree_single_leaf_exact_witness :
    (1 ≤ atreeExP.length ∧ atreeExP.length ≤ 50 ∧
      (∀ i < atreeExP.length, 0 ≤ coord (posAt atreeExP i) 0) ∧
      leafMin (posAt atreeExP) atreeExP.length <
        leafMax (posAt atreeExP) atreeExP.length) ∧
    (∃ st L, atreeNew atreeExP = some st ∧
      atreeNearestNeighbors st (fun _ => 1) 0 (1/4) [] = some ([] ++ L) ∧
      ∀ u, u ∈ L ↔ (u < atreeExP.length ∧
        distSq (posAt atreeExP 0) (posAt atreeExP u) ≤
          ((1/4 : ℚ) * 1 ^ 2) ^ 2)) := by
  have hlen : atreeExP.length = 2 := rfl
  have hh1 : 1 ≤ atreeExP.length := by rw [hlen]; norm_num
  have hh50 : atreeExP.length ≤ 50 := by rw [hlen]; norm_num
  have hhnn : ∀ i < atreeExP.length, 0 ≤ coord (posAt atreeExP i) 0 := by
    intro i hi
    rw [hlen] at hi
    interval_cases i <;> norm_num [posAt, atreeExP, coord]
  have hls : leafSorted (posAt atreeExP) atreeExP.length = [0, 1] := by
    unfold leafSorted
    rw [hlen, show List.range 2 = [0, 1] from rfl]
    exact exSort_eval
  have hld : leafDpos (posAt atreeExP) atreeExP.length = [0, 3/8] := by
    unfold leafDpos
    rw [hls]
    norm_num [coord, posAt, atreeExP]
  have hhmm : leafMin (posAt atreeExP) atreeExP.length <
      leafMax (posAt atreeExP) atreeExP.length := by
    unfold leafMin leafMax
    rw [hld]
    have hceil : (⌈(3/8 : ℚ)⌉ : ℤ) = 1 := by
      rw [Int.ceil_eq_iff] <;> norm_num
    norm_num [List.headD, List.getLastD, hceil]
  exact ⟨⟨hh1, hh50, hhnn, hhmm⟩,
    atree_single_leaf_exact atreeExP (fun _ => 1) 0 (1/4) [] hh1 hh50 hhnn hhmm⟩

theorem ratSqrt_one : ratSqrt (1 : ℚ) = 1 := by
  have h := ratSqrt_of_sq 1 (by norm_num)
  norm_num at h
  exact h

theorem exQuery_zero_r1 :
    atreeNearestNeighbors exSt (fun _ => 1) 0 1 [] = some [0, 1] := by
  simp only [atreeNearestNeighbors, exSt]
  rw [show ([ALayer.leaf ⟨0, 2, exLut, 0, 50⟩, ALayer.node 0] : List ALayer).length + 1
    = 2 + 1 from by simp]
  simp only [queryRec]
  norm_num [coord, posAt, atreeExP, ratSqrt_one, exLut_getD_zero, exLut_not_empty,
    ratToIdx, scanLeaf, distSq, Fin.sum_univ_two,
    List.getD_cons_zero, List.getD_cons_succ]

theorem exQuery_one_r1 :
    atreeNearestNeighbors exSt (fun _ => 1) 1 1 [] = some [0, 1] := by
  simp only [atreeNearestNeighbors, exSt]
  rw [show ([ALayer.leaf ⟨0, 2, exLut, 0, 50⟩, ALayer.node 0] : List ALayer).length + 1
    = 2 + 1 from by simp]
  simp only [queryRec]
  norm_num [coord, posAt, atreeExP, ratSqrt_one, exLut_getD_zero, exLut_not_empty,
    ratToIdx, scanLeaf, distSq, Fin.sum_univ_two,
    List.getD_cons_zero, List.getD_cons_succ]

/-- The tree-driven query closure over the two-node instance. -/
def atreeNN4 : ℕ → ℚ → List ℕ :=
  fun v r => (atreeNearestNeighbors exSt (fun _ => 1) v r []).getD []

/-- The tree-driven repelling-node lists over the two-node instance
(no edges, unit weights). -/
def repelling4 : ℕ → List ℕ :=
  defaultRepellingNodes atreeNN4 (fun _ _ => false) (fun _ => 1) atreeExP

theorem repelling4_zero : repelling4 0 = [1] := by
  unfold repelling4 defaultRepellingNodes atreeNN4
  rw [exQuery_zero_r1]
  norm_num [List.filter, posAt, atreeExP, distSq, Fin.sum_univ_two]

theorem repelling4_one : repelling4 1 = [0] := by
  unfold repelling4 defaultRepellingNodes atreeNN4
  rw [exQuery_one_r1]
  norm_num [List.filter, posAt, atreeExP, distSq, Fin.sum_univ_two]

theorem merged4 : mergedCandidates atreeExP.length repelling4 0 = [1, 1] := by
  unfold mergedCandidates repulsionCaches mirrorPushes
  rw [show atreeExP.length = 2 from rfl, show List.range 2 = [0, 1] from rfl]
  rw [List.map_cons, List.map_cons, List.map_nil, repelling4_zero, repelling4_one]
  norm_num [List.enum, List.filter]

/-- C4 is false as stated: with the tree index driving the pass on the
two-node instance (unit weights, no edges, radius parameter 1), node 1
sits in the cache of node 0 and node 0 in the cache of node 1, so the
merged candidate list of node 0 is [1, 1] — not deduplicated (the
`sort_unstable`/`dedup` calls are commented out in the source in
src/embedder.rs lines 336-338).  The per-pair repulsion force (first
component -1) is applied twice: the accumulated force on node 0 has
first component -2. -/
theorem atree_pass_duplicate_pair_force :
    ¬ (mergedCandidates atreeExP.length repelling4 0).Nodup ∧
    repulsionForce 1 [1, 1] atreeExP (fun _ => 0) 0 1 ⟨0, by norm_num⟩ = -1 ∧
    (calcRepulsionForces 1 [1, 1] atreeExP (fun _ => 0) repelling4
      [(fun _ => 0), (fun _ => 0)]).getD 0 (fun _ => 0) ⟨0, by norm_num⟩ = -2 := by
  have hm : magSq (posAt atreeExP 0 - posAt atreeExP 1) = 9/64 := by
    norm_num [magSq, posAt, atreeExP, Fin.sum_univ_two, Pi.sub_apply]
  have hmag : magnitude (posAt atreeExP 0 - posAt atreeExP 1) = 3/8 := by
    unfold magnitude
    rw [hm]
    have h := ratSqrt_of_sq (3/8 : ℚ) (by norm_num)
    norm_num at h
    exact h
  have hforce : repulsionForce 1 [1, 1] atreeExP (fun _ => 0) 0 1
      ⟨0, by norm_num⟩ = (-1 : ℚ) := by
    simp only [repulsionForce]
    rw [hmag]
    rw [if_neg (by norm_num)]
    rw [if_neg (by norm_num [wAt])]
    norm_num [scaleDVec, posAt, atreeExP, wAt, Pi.sub_apply]
  refine ⟨?_, hforce, ?_⟩
  · rw [merged4]
    simp
  · unfold calcRepulsionForces
    rw [show List.range atreeExP.length = [0, 1] from rfl]
    simp only [List.map_cons, List.map_nil, List.getD_cons_zero]
    rw [merged4]
    simp only [List.map_cons, List.map_nil, List.sum_cons, List.sum_nil]
    simp only [Pi.add_apply, Pi.zero_apply]
    rw [hforce]
    norm_num
